import Mathlib

/-!
Verification of the Connect-Four MCTS engine of
`src/J_Hendricks_MCT_AI_Visualizer.py`, shallowly embedded in Lean.

Conventions of the embedding:
* a numpy `(6,7)` board is a function `Nat → Nat → Nat` (row, column — row 0 is
  the bottom row, exactly as in the source); cells are `EMPTY = 0`,
  `PLAYER_PIECE = 1`, `AI_PIECE = 2`;
* the process-default random source (`random.choice`) is made explicit: a
  stream `rng : Nat → Nat` of draws together with a running position; choosing
  from a list of length `n` consumes one draw `r` and picks index `r % n`,
  which ranges uniformly over the list as `r` does;
* `best_uct_child` computes its scores on IEEE floats (`math.sqrt`,
  `math.log`, `float('inf')`); the embedding abstracts that float argmax as a
  policy `sel : Node → Nat` giving, for the node being descended from, the
  index (mod the number of children) of the child that the float computation
  selects — the only fact the surrounding algorithm relies on is that `max`
  returns an element of the children mapping;
* Python code that can raise (`max()` on an empty sequence, `random.choice`
  on an empty list, indexing a board with the `None` returned by
  `get_next_open_row` on a full column) is modelled in `Option`, `none`
  standing for the raised exception propagating to the caller;
* the in-place mutation of node counters during backpropagation becomes
  explicit state passing: one search iteration rebuilds the tree along the
  path it descended, applying exactly the increments `backpropagate` would
  apply to the nodes of that path.
-/

namespace MCT

/-- Game constants from the source (`ROW_COUNT = 6`). -/
def ROW_COUNT : Nat := 6

/-- Game constants from the source (`COLUMN_COUNT = 7`). -/
def COLUMN_COUNT : Nat := 7

/-- Cell marker for an empty cell. -/
def EMPTY : Nat := 0

/-- Cell marker for the human player's piece. -/
def PLAYER_PIECE : Nat := 1

/-- Cell marker for the AI's piece. -/
def AI_PIECE : Nat := 2

/-- A board: `b r c` is the cell at row `r` (0 = bottom) and column `c`. -/
abbrev Board := Nat → Nat → Nat

/-- Source `create_board`: the all-zero board. -/
def create_board : Board := fun _ _ => EMPTY

/-- Source `drop_piece(board, row, col, piece)`: set one cell (pure update of the
array mutation `board[row][col] = piece`). -/
def drop_piece (b : Board) (row col piece : Nat) : Board :=
  fun r c => if r = row ∧ c = col then piece else b r c

/-- Source `is_valid_location(board, col)`: the topmost cell of `col` is empty. -/
def is_valid_location (b : Board) (col : Nat) : Bool :=
  b (ROW_COUNT - 1) col == 0

/-- Source `get_next_open_row(board, col)`: first row from the bottom whose cell in
`col` is empty; `none` models the implicit `None` returned when the column is
full. -/
def get_next_open_row (b : Board) (col : Nat) : Option Nat :=
  (List.range ROW_COUNT).find? (fun r => b r col == 0)

/-- Source `winning_move(board, piece)`: scan the four orientations for four
consecutive cells of `piece`; each nested `for`/early-`return True` loop of
the source becomes a `List.any` over the same index ranges. -/
def winning_move (b : Board) (piece : Nat) : Bool :=
  ((List.range (COLUMN_COUNT - 3)).any fun c => (List.range ROW_COUNT).any fun r =>
    b r c == piece && b r (c+1) == piece && b r (c+2) == piece && b r (c+3) == piece) ||
  ((List.range COLUMN_COUNT).any fun c => (List.range (ROW_COUNT - 3)).any fun r =>
    b r c == piece && b (r+1) c == piece && b (r+2) c == piece && b (r+3) c == piece) ||
  ((List.range (COLUMN_COUNT - 3)).any fun c => (List.range (ROW_COUNT - 3)).any fun r =>
    b r c == piece && b (r+1) (c+1) == piece && b (r+2) (c+2) == piece && b (r+3) (c+3) == piece) ||
  ((List.range (COLUMN_COUNT - 3)).any fun c => (List.range' 3 (ROW_COUNT - 3)).any fun r =>
    b r c == piece && b (r-1) (c+1) == piece && b (r-2) (c+2) == piece && b (r-3) (c+3) == piece)

/-- Source `get_valid_locations(board)`: all columns whose top cell is empty, in
ascending order. -/
def get_valid_locations (b : Board) : List Nat :=
  (List.range COLUMN_COUNT).filter (fun col => is_valid_location b col)

/-- Source `is_terminal_node(board)`: someone has won, or no legal column remains. -/
def is_terminal_node (b : Board) : Bool :=
  winning_move b PLAYER_PIECE || winning_move b AI_PIECE || (get_valid_locations b).isEmpty

/-- Source `count_pieces(board)` (`np.count_nonzero`): number of non-empty cells. -/
def count_pieces (b : Board) : Nat :=
  ((List.range ROW_COUNT).map
    (fun r => (List.range COLUMN_COUNT).countP (fun c => !(b r c == 0)))).sum

/-- Number of empty in-range cells; used as a provably sufficient fuel bound
for the rollout loop (each placement of the rollout fills one such cell). -/
def count_empty_cells (b : Board) : Nat :=
  ((List.range ROW_COUNT).map
    (fun r => (List.range COLUMN_COUNT).countP (fun c => b r c == 0))).sum

/-- The turn-parity rule `AI_PIECE if count_pieces(b) % 2 == 0 else
PLAYER_PIECE` used in `Node.expand` and `MCTS_Search`. -/
def next_player_piece (b : Board) : Nat :=
  if count_pieces b % 2 = 0 then AI_PIECE else PLAYER_PIECE

/-- Source `random.choice(l)` with the random draw `r` made explicit: uniform index
`r % l.length`; on the empty list Python raises `IndexError`, modelled as
`none`. -/
def random_choice (l : List Nat) (r : Nat) : Option Nat :=
  match l with
  | [] => none
  | x :: xs => some ((x :: xs).get ⟨r % (x :: xs).length, Nat.mod_lt _ (Nat.succ_pos _)⟩)

/-- Spec-side predicate: a horizontal four-in-a-row of `piece`. -/
def HasHorizontalFour (b : Board) (p : Nat) : Prop :=
  ∃ c < COLUMN_COUNT - 3, ∃ r < ROW_COUNT,
    b r c = p ∧ b r (c+1) = p ∧ b r (c+2) = p ∧ b r (c+3) = p

/-- Spec-side predicate: a vertical four-in-a-row of `piece`. -/
def HasVerticalFour (b : Board) (p : Nat) : Prop :=
  ∃ c < COLUMN_COUNT, ∃ r < ROW_COUNT - 3,
    b r c = p ∧ b (r+1) c = p ∧ b (r+2) c = p ∧ b (r+3) c = p

/-- Spec-side predicate: an ascending-diagonal four-in-a-row of `piece`. -/
def HasAscendingFour (b : Board) (p : Nat) : Prop :=
  ∃ c < COLUMN_COUNT - 3, ∃ r < ROW_COUNT - 3,
    b r c = p ∧ b (r+1) (c+1) = p ∧ b (r+2) (c+2) = p ∧ b (r+3) (c+3) = p

/-- Spec-side predicate: a descending-diagonal four-in-a-row of `piece`
(anchored at its top-left cell, rows `3..5` as in the source). -/
def HasDescendingFour (b : Board) (p : Nat) : Prop :=
  ∃ c < COLUMN_COUNT - 3, ∃ r, 3 ≤ r ∧ r < ROW_COUNT ∧
    b r c = p ∧ b (r-1) (c+1) = p ∧ b (r-2) (c+2) = p ∧ b (r-3) (c+3) = p

/-- C5 — `winning_move` detects a four-in-a-row in any single one of the four
orientations, and returns `false` exactly when no orientation contains four
consecutive cells of the piece (equivalently, when every run of the piece in
every orientation has length at most three). -/
theorem C5_winning_move_orientations (b : Board) (p : Nat) :
    winning_move b p = true ↔
      HasHorizontalFour b p ∨ HasVerticalFour b p ∨
      HasAscendingFour b p ∨ HasDescendingFour b p := by
  simp only [winning_move, HasHorizontalFour, HasVerticalFour, HasAscendingFour,
    HasDescendingFour, Bool.or_eq_true, List.any_eq_true, List.mem_range,
    Bool.and_eq_true, beq_iff_eq, List.mem_range'_1]
  constructor
  · rintro (((⟨c, hc, r, hr, h⟩ | ⟨c, hc, r, hr, h⟩) | ⟨c, hc, r, hr, h⟩) | ⟨c, hc, r, hr, h⟩)
    · exact Or.inl ⟨c, hc, r, hr, h.1.1.1, h.1.1.2, h.1.2, h.2⟩
    · exact Or.inr (Or.inl ⟨c, hc, r, hr, h.1.1.1, h.1.1.2, h.1.2, h.2⟩)
    · exact Or.inr (Or.inr (Or.inl ⟨c, hc, r, hr, h.1.1.1, h.1.1.2, h.1.2, h.2⟩))
    · exact Or.inr (Or.inr (Or.inr ⟨c, hc, r, hr.1, by omega, h.1.1.1, h.1.1.2, h.1.2, h.2⟩))
  · rintro (⟨c, hc, r, hr, h1, h2, h3, h4⟩ | ⟨c, hc, r, hr, h1, h2, h3, h4⟩ |
      ⟨c, hc, r, hr, h1, h2, h3, h4⟩ | ⟨c, hc, r, h3le, hr, h1, h2, h3, h4⟩)
    · exact Or.inl (Or.inl (Or.inl ⟨c, hc, r, hr, ⟨⟨h1, h2⟩, h3⟩, h4⟩))
    · exact Or.inl (Or.inl (Or.inr ⟨c, hc, r, hr, ⟨⟨h1, h2⟩, h3⟩, h4⟩))
    · exact Or.inl (Or.inr ⟨c, hc, r, hr, ⟨⟨h1, h2⟩, h3⟩, h4⟩)
    · exact Or.inr ⟨c, hc, r, ⟨h3le, by omega⟩, ⟨⟨h1, h2⟩, h3⟩, h4⟩

/-- MCTS tree node (`class Node`): the board after the move that produced the
node, the piece that made that move (`player`, `None` at the root), the move
column itself (`None` at the root), the not-yet-expanded legal columns, the
children mapping in insertion order, and the two backpropagation counters.
The parent back-reference of the source is realized by the position of the
node inside its parent's `children` list. -/
inductive Node : Type where
  | mk (board : Board) (player : Option Nat) (move : Option Nat)
       (untried_moves : List Nat) (children : List (Nat × Node))
       (visits : Nat) (wins : Nat)

/-- Projection: the node's board. -/
def Node.board : Node → Board
  | .mk b _ _ _ _ _ _ => b

/-- Projection: the piece that made the move producing this node. -/
def Node.player : Node → Option Nat
  | .mk _ pl _ _ _ _ _ => pl

/-- Projection: the column that produced this node from its parent. -/
def Node.move : Node → Option Nat
  | .mk _ _ mv _ _ _ _ => mv

/-- Projection: legal columns not yet expanded from this node. -/
def Node.untried_moves : Node → List Nat
  | .mk _ _ _ u _ _ _ => u

/-- Projection: the children mapping, in insertion order. -/
def Node.children : Node → List (Nat × Node)
  | .mk _ _ _ _ ch _ _ => ch

/-- Projection: the visits counter. -/
def Node.visits : Node → Nat
  | .mk _ _ _ _ _ v _ => v

/-- Projection: the wins counter. -/
def Node.wins : Node → Nat
  | .mk _ _ _ _ _ _ w => w

@[simp] theorem Node.board_mk (b pl mv u ch v w) :
    (Node.mk b pl mv u ch v w).board = b := rfl

@[simp] theorem Node.player_mk (b pl mv u ch v w) :
    (Node.mk b pl mv u ch v w).player = pl := rfl

@[simp] theorem Node.move_mk (b pl mv u ch v w) :
    (Node.mk b pl mv u ch v w).move = mv := rfl

@[simp] theorem Node.untried_moves_mk (b pl mv u ch v w) :
    (Node.mk b pl mv u ch v w).untried_moves = u := rfl

@[simp] theorem Node.children_mk (b pl mv u ch v w) :
    (Node.mk b pl mv u ch v w).children = ch := rfl

@[simp] theorem Node.visits_mk (b pl mv u ch v w) :
    (Node.mk b pl mv u ch v w).visits = v := rfl

@[simp] theorem Node.wins_mk (b pl mv u ch v w) :
    (Node.mk b pl mv u ch v w).wins = w := rfl

/-- Source `Node.__init__`: fresh node for a board — untried moves are the board's
legal columns, no children, both counters zero. -/
def Node.init (b : Board) (move player : Option Nat) : Node :=
  .mk b player move (get_valid_locations b) [] 0 0

/-- The win-credit test of `backpropagate` (line 207):
`winner is not None and node.player == winner` — `1` exactly when the node's
mover equals the simulation's winning piece. -/
def win_credit (player winner : Option Nat) : Nat :=
  match winner, player with
  | some wp, some p => if p = wp then 1 else 0
  | _, _ => 0

/-- Source `simulate_random_playout(board, starting_player_piece)`: random play until
a terminal outcome. The board copy `b = board.copy()` is implicit in the pure
state passing. `fuel` is a structural-recursion bound; every call in this
development passes `count_empty_cells b + 1`, which is sufficient because
each loop turn that does not return fills one empty in-range cell. Returns
the winning piece (`none` = draw) and the advanced random position; the outer
`none` models the `TypeError` Python would raise if `get_next_open_row`
returned `None` for a column reported valid (impossible, proved below). -/
def simulate_random_playout (rng : Nat → Nat) :
    Nat → Board → Nat → Nat → Option (Option Nat × Nat)
  | 0, _, _, pos => some (none, pos)
  | fuel+1, b, next_player, pos =>
    if winning_move b PLAYER_PIECE then some (some PLAYER_PIECE, pos)
    else if winning_move b AI_PIECE then some (some AI_PIECE, pos)
    else
      match get_valid_locations b with
      | [] => some (none, pos)
      | v :: vs =>
        match random_choice (v :: vs) (rng pos) with
        | none => none
        | some mv =>
          match get_next_open_row b mv with
          | none => none
          | some row =>
            simulate_random_playout rng fuel (drop_piece b row mv next_player)
              (if next_player == AI_PIECE then PLAYER_PIECE else AI_PIECE) (pos + 1)

mutual
/-- One iteration of the `for _ in range(iterations)` loop of `MCTS_Search`
(lines 215–233), rebuilding the tree along the path it visits:

* selection: while the node is non-terminal and fully expanded, descend into
  `best_uct_child()` — the float argmax abstracted as the index
  `sel node % children.length`; on an empty children mapping Python's `max`
  raises `ValueError` (`none`);
* expansion (`Node.expand`): pick an untried column uniformly at random,
  place the parity-inferred piece on a copy of the board in the lowest open
  row, create the child with `Node.__init__`, move the column from
  `untried_moves` into `children`;
* simulation: a random playout from the reached node's board, starting with
  the parity-inferred next player;
* backpropagation: on the way back up, every node of the visited path gets
  `visits += 1` and `wins += win_credit` — the new child itself first, then
  each ancestor up to the node this call was entered at.

Returns the updated node, the advanced random position and the playout's
winner (still needed by the ancestors' backpropagation step). -/
def mcts_iteration (sel : Node → Nat) (rng : Nat → Nat) :
    Node → Nat → Option (Node × Nat × Option Nat)
  | .mk b pl mv u ch v w, pos =>
    if ¬ is_terminal_node b ∧ u = [] then
      match mcts_select_child sel rng (sel (.mk b pl mv u ch v w) % ch.length) ch pos with
      | none => none
      | some (ch2, pos2, winner) =>
        some (.mk b pl mv u ch2 (v+1) (w + win_credit pl winner), pos2, winner)
    else if ¬ is_terminal_node b then
      match random_choice u (rng pos) with
      | none => none
      | some move =>
        match get_next_open_row b move with
        | none => none
        | some row =>
          let np := next_player_piece b
          let cb := drop_piece b row move np
          match simulate_random_playout rng (count_empty_cells cb + 1) cb
              (next_player_piece cb) (pos + 1) with
          | none => none
          | some (winner, pos2) =>
            some (.mk b pl mv (u.erase move)
              (ch ++ [(move, .mk cb (some np) (some move) (get_valid_locations cb) []
                1 (win_credit (some np) winner))])
              (v+1) (w + win_credit pl winner), pos2, winner)
    else
      match simulate_random_playout rng (count_empty_cells b + 1) b
          (next_player_piece b) pos with
      | none => none
      | some (winner, pos2) =>
        some (.mk b pl mv u ch (v+1) (w + win_credit pl winner), pos2, winner)

/-- Descend into the `i`-th entry of a children mapping, run one iteration
from that child, and splice the updated child back at its position (the
functional image of following `node = node.best_uct_child()` and later
walking back through `node.parent`). `none` on an out-of-range index models
`max()` raising `ValueError` on an empty children mapping (the index is
always reduced mod the length, so this happens exactly when the mapping is
empty). -/
def mcts_select_child (sel : Node → Nat) (rng : Nat → Nat) :
    Nat → List (Nat × Node) → Nat → Option (List (Nat × Node) × Nat × Option Nat)
  | _, [], _ => none
  | 0, (m, c) :: rest, pos =>
    match mcts_iteration sel rng c pos with
    | none => none
    | some (c2, pos2, winner) => some ((m, c2) :: rest, pos2, winner)
  | i+1, (m, c) :: rest, pos =>
    match mcts_select_child sel rng i rest pos with
    | none => none
    | some (rest2, pos2, winner) => some ((m, c) :: rest2, pos2, winner)
end

/-- The `for _ in range(iterations)` loop: run `n` iterations from `t`,
threading the tree and the random position. -/
def mcts_loop (sel : Node → Nat) (rng : Nat → Nat) :
    Nat → Node → Nat → Option (Node × Nat)
  | 0, t, pos => some (t, pos)
  | n+1, t, pos =>
    match mcts_iteration sel rng t pos with
    | none => none
    | some (t2, pos2, _) => mcts_loop sel rng n t2 pos2

/-- Source `Node.best_child_by_visits`: `max(children.values(), key=visits)` over the
mapping in insertion order — Python's `max` keeps the first of equally good
elements, so a later child replaces the accumulator only on strictly greater
visits. -/
def best_child_by_visits (c0 : Nat × Node) (cs : List (Nat × Node)) : Nat × Node :=
  cs.foldl (fun acc y => if acc.2.visits < y.2.visits then y else acc) c0

/-- Source `max(child.visits for child in root.children.values())`. -/
def max_child_visits (ch : List (Nat × Node)) : Nat :=
  (ch.map (fun p => p.2.visits)).foldl Nat.max 0

/-- One per-column statistics record of the returned `stats` mapping. -/
structure MStat where
  visits : Nat
  win_rate : ℚ
  visits_ratio : ℚ
deriving DecidableEq

/-- Source `MCTS_Search(root_board, iterations)` (lines 212–250): build a fresh root
on a copy of the caller's board, run the iteration loop, then either fall
back to a uniform random legal column (empty statistics) when the root has no
children — `none` modelling the `IndexError` of `random.choice([])` when
there is additionally no legal column — or return the most-visited child's
move together with the per-column statistics mapping. Float divisions of the
source are taken exactly, in `ℚ`. -/
def MCTS_Search (sel : Node → Nat) (rng : Nat → Nat) (root_board : Board)
    (iterations : Nat) : Option (Nat × List (Nat × MStat)) :=
  match mcts_loop sel rng iterations (Node.init root_board none none) 0 with
  | none => none
  | some (root, pos) =>
    match root.children with
    | [] =>
      match random_choice (get_valid_locations root_board) (rng pos) with
      | none => none
      | some col => some (col, [])
    | c0 :: cs =>
      let best := best_child_by_visits c0 cs
      let maxv := max_child_visits (c0 :: cs)
      some (best.2.move.getD 0,
        (c0 :: cs).map (fun p => (p.1,
          ⟨p.2.visits,
           if 0 < p.2.visits then (p.2.wins : ℚ) / (p.2.visits : ℚ) else 0,
           if 0 < maxv then (p.2.visits : ℚ) / (maxv : ℚ) else 0⟩)))

/-- The counters-and-mover view of one node of a backpropagation path. -/
structure BPNode where
  visits : Nat
  wins : Nat
  player : Option Nat
deriving DecidableEq

/-- Source `backpropagate(node, winner)` (lines 203–209): the `while node is not
None: ...; node = node.parent` walk, taken over the explicit parent chain
`node :: node.parent :: ... :: root` — every node of the chain gets
`visits += 1`, and `wins += 1` exactly on the nodes whose mover equals the
winning piece. -/
def backpropagate : List BPNode → Option Nat → List BPNode
  | [], _ => []
  | n :: rest, winner =>
    ⟨n.visits + 1, n.wins + win_credit n.player winner, n.player⟩ :: backpropagate rest winner

/-! Basic facts about the helpers. -/

theorem win_credit_le_one (pl winner : Option Nat) : win_credit pl winner ≤ 1 := by
  unfold win_credit
  rcases winner with _ | wp
  · exact Nat.zero_le 1
  · rcases pl with _ | p
    · exact Nat.zero_le 1
    · dsimp only
      split <;> omega

@[simp] theorem win_credit_none (winner : Option Nat) : win_credit none winner = 0 := by
  unfold win_credit
  cases winner <;> rfl

theorem random_choice_mem {l : List Nat} {r y : Nat} (h : random_choice l r = some y) :
    y ∈ l := by
  cases l with
  | nil => simp [random_choice] at h
  | cons x xs =>
    simp only [random_choice, Option.some_inj] at h
    rw [← h]
    exact (x :: xs).get_mem _ _

theorem random_choice_nil (r : Nat) : random_choice [] r = none := rfl

theorem random_choice_val {l : List Nat} (hne : l ≠ []) (r : Nat) :
    random_choice l r = some (l.getD (r % l.length) 0) := by
  cases l with
  | nil => exact absurd rfl hne
  | cons x xs =>
    have hlt : r % (x :: xs).length < (x :: xs).length := Nat.mod_lt _ (by simp)
    simp only [random_choice, Option.some_inj, List.getD_eq_getElem?_getD,
      List.getElem?_eq_getElem hlt, List.get_eq_getElem, Option.getD_some]

theorem random_choice_cover {l : List Nat} {y : Nat} (h : y ∈ l) :
    ∃ r, random_choice l r = some y := by
  obtain ⟨i, hy⟩ := List.mem_iff_get.mp h
  refine ⟨i.1, ?_⟩
  have hne : l ≠ [] := List.ne_nil_of_mem h
  rw [random_choice_val hne i.1, Nat.mod_eq_of_lt i.2, ← hy]
  rw [List.getD_eq_getElem _ _ i.2]
  rfl

theorem mem_get_valid_locations {b : Board} {x : Nat} :
    x ∈ get_valid_locations b ↔ x < COLUMN_COUNT ∧ is_valid_location b x = true := by
  simp [get_valid_locations, List.mem_filter, List.mem_range]

/-- Source `List.find?` over `range'` returns the first index satisfying the
predicate: it holds there and fails strictly below. -/
theorem find?_range'_first {p : Nat → Bool} :
    ∀ (n s a : Nat), (List.range' s n).find? p = some a →
      p a = true ∧ ∀ i, s ≤ i → i < a → p i = false := by
  intro n
  induction n with
  | zero => intro s a h; simp [List.range'] at h
  | succ n ih =>
    intro s a h
    rw [show List.range' s (n+1) = s :: List.range' (s+1) n from rfl] at h
    by_cases hs : p s
    · rw [List.find?_cons_of_pos _ hs] at h
      cases h
      exact ⟨hs, fun i h1 h2 => absurd (Nat.lt_of_le_of_lt h1 h2) (Nat.lt_irrefl _)⟩
    · rw [List.find?_cons_of_neg _ hs] at h
      obtain ⟨ha, hbelow⟩ := ih (s+1) a h
      refine ⟨ha, fun i h1 h2 => ?_⟩
      rcases Nat.eq_or_lt_of_le h1 with h1 | h1
      · rw [← h1]; exact Bool.not_eq_true _ |>.mp hs
      · exact hbelow i h1 h2

theorem get_next_open_row_spec {b : Board} {col row : Nat}
    (h : get_next_open_row b col = some row) :
    b row col = 0 ∧ row < ROW_COUNT ∧ ∀ r2, r2 < row → b r2 col ≠ 0 := by
  unfold get_next_open_row at h
  have hmem := List.mem_of_find?_eq_some h
  rw [List.range_eq_range'] at h
  obtain ⟨hrow, hbelow⟩ := find?_range'_first _ _ _ h
  refine ⟨by simpa using hrow, by simpa [List.mem_range] using hmem, fun r2 h2 => ?_⟩
  have := hbelow r2 (Nat.zero_le _) h2
  simpa using this

theorem get_next_open_row_isSome {b : Board} {col : Nat}
    (h : is_valid_location b col = true) : (get_next_open_row b col).isSome := by
  unfold get_next_open_row
  rw [List.find?_isSome]
  exact ⟨ROW_COUNT - 1, by simp [ROW_COUNT], by simpa [is_valid_location] using h⟩

/-! Facts about the rollout. -/

theorem simulate_isSome (rng : Nat → Nat) :
    ∀ (fuel : Nat) (b : Board) (np pos : Nat),
      ∃ w pos2, simulate_random_playout rng fuel b np pos = some (w, pos2) := by
  intro fuel
  induction fuel with
  | zero => intro b np pos; exact ⟨none, pos, rfl⟩
  | succ fuel ih =>
    intro b np pos
    by_cases h1 : winning_move b PLAYER_PIECE
    · exact ⟨some PLAYER_PIECE, pos, by unfold simulate_random_playout; rw [if_pos h1]⟩
    by_cases h2 : winning_move b AI_PIECE
    · exact ⟨some AI_PIECE, pos, by
        unfold simulate_random_playout; rw [if_neg h1, if_pos h2]⟩
    cases hv : get_valid_locations b with
    | nil =>
      exact ⟨none, pos, by
        unfold simulate_random_playout; rw [if_neg h1, if_neg h2, hv]⟩
    | cons v vs =>
      have hrc := random_choice_val (l := v :: vs) (by simp) (rng pos)
      have hmem : (v :: vs).getD (rng pos % (v :: vs).length) 0 ∈ get_valid_locations b := by
        rw [hv]; exact random_choice_mem hrc
      obtain ⟨row, hrow⟩ := Option.isSome_iff_exists.mp
        (get_next_open_row_isSome (mem_get_valid_locations.mp hmem).2)
      obtain ⟨w, pos2, hsim⟩ := ih (drop_piece b row ((v :: vs).getD (rng pos % (v :: vs).length) 0) np)
        (if (np == AI_PIECE) = true then PLAYER_PIECE else AI_PIECE) (pos + 1)
      refine ⟨w, pos2, ?_⟩
      unfold simulate_random_playout
      rw [if_neg h1, if_neg h2, hv]
      dsimp only
      rw [hrc]
      dsimp only
      rw [hrow]
      exact hsim

theorem simulate_terminal (rng : Nat → Nat) {b : Board}
    (h : is_terminal_node b = true) (fuel np pos : Nat) :
    ∃ w, simulate_random_playout rng (fuel + 1) b np pos = some (w, pos) := by
  unfold simulate_random_playout
  by_cases h1 : winning_move b PLAYER_PIECE
  · exact ⟨some PLAYER_PIECE, by rw [if_pos h1]⟩
  · rw [if_neg h1]
    by_cases h2 : winning_move b AI_PIECE
    · exact ⟨some AI_PIECE, by rw [if_pos h2]⟩
    · rw [if_neg h2]
      have hv : get_valid_locations b = [] := by
        simp only [is_terminal_node, Bool.or_eq_true] at h
        rcases h with (h | h) | h
        · exact absurd h h1
        · exact absurd h h2
        · exact List.isEmpty_iff.mp h
      rw [hv]
      exact ⟨none, rfl⟩

/-! Inversion and construction lemmas for one search iteration. -/

theorem mcts_select_child_spec (sel : Node → Nat) (rng : Nat → Nat) :
    ∀ (ch : List (Nat × Node)) (i pos : Nat) (ch2 : List (Nat × Node)) (pos2 : Nat)
      (winner : Option Nat),
      mcts_select_child sel rng i ch pos = some (ch2, pos2, winner) →
      ∃ (hi : i < ch.length) (c2 : Node),
        mcts_iteration sel rng (ch.get ⟨i, hi⟩).2 pos = some (c2, pos2, winner) ∧
        ch2 = ch.set i ((ch.get ⟨i, hi⟩).1, c2) := by
  intro ch
  induction ch with
  | nil =>
    intro i pos ch2 pos2 winner h
    cases i <;> simp [mcts_select_child] at h
  | cons hd tl ih =>
    intro i pos ch2 pos2 winner h
    obtain ⟨m, c⟩ := hd
    cases i with
    | zero =>
      unfold mcts_select_child at h
      cases hit : mcts_iteration sel rng c pos with
      | none => rw [hit] at h; exact absurd h (by simp)
      | some x =>
        obtain ⟨c2, p2, wn⟩ := x
        rw [hit] at h
        simp only [Option.some_inj, Prod.mk.injEq] at h
        obtain ⟨h1, h2, h3⟩ := h
        subst h2; subst h3
        refine ⟨Nat.succ_pos _, c2, hit, ?_⟩
        rw [← h1]
        rfl
    | succ i =>
      unfold mcts_select_child at h
      cases hrec : mcts_select_child sel rng i tl pos with
      | none => rw [hrec] at h; exact absurd h (by simp)
      | some x =>
        obtain ⟨tl2, p2, wn⟩ := x
        rw [hrec] at h
        simp only [Option.some_inj, Prod.mk.injEq] at h
        obtain ⟨h1, h2, h3⟩ := h
        subst h2; subst h3
        obtain ⟨hi, c2, hit, hset⟩ := ih i pos tl2 _ _ hrec
        refine ⟨Nat.succ_lt_succ hi, c2, hit, ?_⟩
        rw [← h1, hset]
        rfl

theorem mcts_select_child_of_ok (sel : Node → Nat) (rng : Nat → Nat) :
    ∀ (ch : List (Nat × Node)) (i pos : Nat) (hi : i < ch.length) (c2 : Node) (pos2 : Nat)
      (winner : Option Nat),
      mcts_iteration sel rng (ch.get ⟨i, hi⟩).2 pos = some (c2, pos2, winner) →
      mcts_select_child sel rng i ch pos =
        some (ch.set i ((ch.get ⟨i, hi⟩).1, c2), pos2, winner) := by
  intro ch
  induction ch with
  | nil => intro i pos hi; exact absurd hi (by simp)
  | cons hd tl ih =>
    intro i pos hi c2 pos2 winner h
    obtain ⟨m, c⟩ := hd
    cases i with
    | zero =>
      unfold mcts_select_child
      have h2 : mcts_iteration sel rng c pos = some (c2, pos2, winner) := h
      rw [h2]
      rfl
    | succ i =>
      unfold mcts_select_child
      have hi2 : i < tl.length := Nat.lt_of_succ_lt_succ hi
      rw [show ((m, c) :: tl).get ⟨i + 1, hi⟩ = tl.get ⟨i, hi2⟩ from rfl] at h
      rw [ih i pos hi2 c2 pos2 winner h]
      rfl

/-- One iteration increments the entered node's visits by exactly one, adds
the win credit of the playout winner to its wins, and leaves its board, its
mover and its move unchanged — the root-level face of backpropagation. -/
theorem mcts_iteration_basic {sel : Node → Nat} {rng : Nat → Nat} {t : Node}
    {pos : Nat} {t2 : Node} {pos2 : Nat} {winner : Option Nat}
    (h : mcts_iteration sel rng t pos = some (t2, pos2, winner)) :
    t2.visits = t.visits + 1 ∧ t2.board = t.board ∧ t2.player = t.player ∧
    t2.move = t.move ∧ t2.wins = t.wins + win_credit t.player winner := by
  cases t with
  | mk b pl mv u ch v w =>
    unfold mcts_iteration at h
    by_cases hc1 : ¬ is_terminal_node b = true ∧ u = []
    · rw [if_pos hc1] at h
      cases hs : mcts_select_child sel rng (sel (.mk b pl mv u ch v w) % ch.length) ch pos with
      | none => rw [hs] at h; exact absurd h (by simp)
      | some x =>
        obtain ⟨ch2, p2, wn⟩ := x
        rw [hs] at h
        simp only [Option.some_inj, Prod.mk.injEq] at h
        obtain ⟨h1, h2, h3⟩ := h
        subst h2; subst h3
        rw [← h1]
        simp
    · rw [if_neg hc1] at h
      by_cases hc2 : ¬ is_terminal_node b = true
      · rw [if_pos hc2] at h
        cases hrc : random_choice u (rng pos) with
        | none => rw [hrc] at h; exact absurd h (by simp)
        | some move =>
          rw [hrc] at h
          dsimp only at h
          cases hro : get_next_open_row b move with
          | none => rw [hro] at h; exact absurd h (by simp)
          | some row =>
            rw [hro] at h
            dsimp only at h
            cases hsim : simulate_random_playout rng
                (count_empty_cells (drop_piece b row move (next_player_piece b)) + 1)
                (drop_piece b row move (next_player_piece b))
                (next_player_piece (drop_piece b row move (next_player_piece b))) (pos + 1) with
            | none => rw [hsim] at h; exact absurd h (by simp)
            | some x =>
              obtain ⟨wn, p2⟩ := x
              rw [hsim] at h
              simp only [Option.some_inj, Prod.mk.injEq] at h
              obtain ⟨h1, h2, h3⟩ := h
              subst h2; subst h3
              rw [← h1]
              simp
      · rw [if_neg hc2] at h
        cases hsim : simulate_random_playout rng (count_empty_cells b + 1) b
            (next_player_piece b) pos with
        | none => rw [hsim] at h; exact absurd h (by simp)
        | some x =>
          obtain ⟨wn, p2⟩ := x
          rw [hsim] at h
          simp only [Option.some_inj, Prod.mk.injEq] at h
          obtain ⟨h1, h2, h3⟩ := h
          subst h2; subst h3
          rw [← h1]
          simp

/-- On a terminal board the iteration skips selection and expansion and only
simulates from the node itself: counters bump, everything else unchanged,
and the rollout returns before consuming any randomness. -/
theorem mcts_iteration_terminal {b : Board} (hterm : is_terminal_node b = true)
    (sel : Node → Nat) (rng : Nat → Nat) (pl mv : Option Nat) (u : List Nat)
    (ch : List (Nat × Node)) (v w pos : Nat) :
    ∃ winner, mcts_iteration sel rng (.mk b pl mv u ch v w) pos =
      some (.mk b pl mv u ch (v+1) (w + win_credit pl winner), pos, winner) := by
  obtain ⟨wn, hsim⟩ := simulate_terminal rng hterm (count_empty_cells b)
    (next_player_piece b) pos
  refine ⟨wn, ?_⟩
  unfold mcts_iteration
  rw [if_neg (by simp [hterm]), if_neg (by simp [hterm]), hsim]

/-- Over a terminal root (mover `none`, zero wins), the whole loop leaves the
board, untried moves and children untouched, adds `n` to visits, keeps wins
at zero, and does not advance the random position. -/
theorem mcts_loop_terminal {b : Board} (hterm : is_terminal_node b = true)
    (sel : Node → Nat) (rng : Nat → Nat) :
    ∀ (n : Nat) (mv : Option Nat) (u : List Nat) (ch : List (Nat × Node)) (v pos : Nat),
      mcts_loop sel rng n (.mk b none mv u ch v 0) pos =
        some (.mk b none mv u ch (v+n) 0, pos) := by
  intro n
  induction n with
  | zero => intro mv u ch v pos; rfl
  | succ n ih =>
    intro mv u ch v pos
    obtain ⟨wn, hit⟩ := mcts_iteration_terminal hterm sel rng none mv u ch v 0 pos
    unfold mcts_loop
    rw [hit]
    simp only [win_credit_none, Nat.add_zero]
    rw [ih mv u ch (v+1) pos]
    have : v + 1 + n = v + (n + 1) := by omega
    rw [this]

theorem mcts_loop_visits (sel : Node → Nat) (rng : Nat → Nat) :
    ∀ (n : Nat) (t : Node) (pos : Nat) (t2 : Node) (pos2 : Nat),
      mcts_loop sel rng n t pos = some (t2, pos2) → t2.visits = t.visits + n := by
  intro n
  induction n with
  | zero =>
    intro t pos t2 pos2 h
    simp only [mcts_loop, Option.some_inj, Prod.mk.injEq] at h
    rw [← h.1]
    omega
  | succ n ih =>
    intro t pos t2 pos2 h
    unfold mcts_loop at h
    cases hit : mcts_iteration sel rng t pos with
    | none => rw [hit] at h; exact absurd h (by simp)
    | some x =>
      obtain ⟨tm, pm, wm⟩ := x
      rw [hit] at h
      have hrec := ih tm pm t2 pos2 h
      have hb := (mcts_iteration_basic hit).1
      omega

/-- C1 — after a search with iteration budget `N ≥ 1` that returns, the root
node's visits counter equals exactly `N`: every one of the `N` iterations
ends with a backpropagation pass that reaches the root and increments its
visits by one. -/
theorem C1_root_visits_eq_iterations (sel : Node → Nat) (rng : Nat → Nat)
    (b : Board) (N : Nat) (hN : 1 ≤ N) (t : Node) (pos : Nat)
    (h : mcts_loop sel rng N (Node.init b none none) 0 = some (t, pos)) :
    t.visits = N := by
  have hv := mcts_loop_visits sel rng N _ 0 t pos h
  simpa [Node.init] using hv

/-- Sample board: a finished game — vertical AI four-in-a-row in column 0,
all columns still open. -/
def sample_win_board : Board := fun r c => if c = 0 ∧ r < 4 then AI_PIECE else EMPTY

/-- Sample board: every in-range cell filled, no legal column. -/
def sample_full_board : Board := fun _ _ => PLAYER_PIECE

theorem C1_root_visits_eq_iterations_witness :
    (Node.mk sample_win_board none none (get_valid_locations sample_win_board) [] 1 0).visits
      = 1 :=
  C1_root_visits_eq_iterations (fun _ => 0) (fun _ => 0) sample_win_board 1 (by decide)
    (Node.mk sample_win_board none none (get_valid_locations sample_win_board) [] 1 0) 0 rfl

/-- C3 — on a root board that is already terminal but still has legal
columns, the root never acquires children, the statistics mapping comes back
empty, and the chosen column is the uniform random choice
(`random.choice`, index `r % length` for the draw `r`) from the legal
columns of the root board; every legal column is chosen under some draw. -/
theorem C3_terminal_root_random_fallback (sel : Node → Nat) (rng : Nat → Nat)
    (b : Board) (N : Nat) (hterm : is_terminal_node b = true)
    (hv : get_valid_locations b ≠ []) :
    (∃ t, mcts_loop sel rng N (Node.init b none none) 0 = some (t, 0) ∧
      t.children = [] ∧ t.board = b) ∧
    MCTS_Search sel rng b N =
      some ((get_valid_locations b).getD (rng 0 % (get_valid_locations b).length) 0, []) ∧
    (∀ c ∈ get_valid_locations b, ∃ r, MCTS_Search sel (fun _ => r) b N = some (c, [])) := by
  have hloop : ∀ rng2 : Nat → Nat,
      mcts_loop sel rng2 N (Node.init b none none) 0 =
        some (.mk b none none (get_valid_locations b) [] N 0, 0) := by
    intro rng2
    have h := mcts_loop_terminal hterm sel rng2 N none (get_valid_locations b) [] 0 0
    simpa [Node.init] using h
  refine ⟨⟨.mk b none none (get_valid_locations b) [] N 0, hloop rng, by simp, by simp⟩, ?_, ?_⟩
  · unfold MCTS_Search
    rw [hloop rng]
    dsimp only [Node.children_mk]
    rw [random_choice_val hv (rng 0)]
  · intro c hc
    obtain ⟨r, hr⟩ := random_choice_cover hc
    refine ⟨r, ?_⟩
    unfold MCTS_Search
    rw [hloop (fun _ => r)]
    dsimp only [Node.children_mk]
    rw [hr]

theorem C3_terminal_root_random_fallback_witness :
    MCTS_Search (fun _ => 0) (fun _ => 0) sample_win_board 2 =
      some ((get_valid_locations sample_win_board).getD
        (0 % (get_valid_locations sample_win_board).length) 0, []) :=
  (C3_terminal_root_random_fallback (fun _ => 0) (fun _ => 0) sample_win_board 2
    (by decide) (by decide)).2.1

/-- C4 — calling the search on a board with no legal columns (so the root
acquires no children) makes the final `random.choice([])` raise, and the
error propagates to the caller instead of being swallowed: the embedded
search returns `none`, never a column. -/
theorem C4_no_legal_columns_raises (sel : Node → Nat) (rng : Nat → Nat)
    (b : Board) (N : Nat) (hv : get_valid_locations b = []) :
    MCTS_Search sel rng b N = none := by
  have hterm : is_terminal_node b = true := by
    simp [is_terminal_node, hv]
  unfold MCTS_Search
  rw [show Node.init b none none = .mk b none none (get_valid_locations b) [] 0 0 from rfl]
  rw [mcts_loop_terminal hterm sel rng N none (get_valid_locations b) [] 0 0]
  dsimp only [Node.children_mk]
  rw [hv]
  rfl

theorem C4_no_legal_columns_raises_witness :
    MCTS_Search (fun _ => 0) (fun _ => 0) sample_full_board 5 = none :=
  C4_no_legal_columns_raises (fun _ => 0) (fun _ => 0) sample_full_board 5 (by decide)

/-! Facts about the chain model of `backpropagate`. -/

theorem win_credit_winner_none (pl : Option Nat) : win_credit pl none = 0 := by
  cases pl <;> rfl

theorem bp_node_facts (n : BPNode) (winner : Option Nat) :
    (n.player = none → n.wins + win_credit n.player winner = n.wins) ∧
    (winner = none → n.wins + win_credit n.player winner = n.wins) ∧
    (∀ wp, winner = some wp →
      (n.player = some wp → n.wins + win_credit n.player winner = n.wins + 1) ∧
      (n.player ≠ some wp → n.wins + win_credit n.player winner = n.wins)) := by
  obtain ⟨v, w, pl⟩ := n
  dsimp only
  refine ⟨?_, ?_, ?_⟩
  · intro hp; subst hp; simp
  · intro hw; subst hw; simp [win_credit_winner_none]
  · intro wp hw
    subst hw
    constructor
    · intro hp; subst hp; simp [win_credit]
    · intro hp
      cases pl with
      | none => simp [win_credit]
      | some p =>
        have hne : p ≠ wp := fun he => hp (by rw [he])
        simp [win_credit, hne]

theorem backpropagate_eq_map (chain : List BPNode) (winner : Option Nat) :
    backpropagate chain winner =
      chain.map (fun n => ⟨n.visits + 1, n.wins + win_credit n.player winner, n.player⟩) := by
  induction chain with
  | nil => rfl
  | cons n rest ih => simp [backpropagate, ih]

/-- C6 — backpropagation walks the chain from the simulated node up to and
including the root: every node of the chain gets `visits + 1`; `wins`
increases by `1` exactly on the nodes whose mover equals the winning piece;
a node with no mover (the root) never gains a win; and a draw adds visits
everywhere but wins nowhere. -/
theorem C6_backpropagate_increments (chain : List BPNode) (winner : Option Nat) :
    (backpropagate chain winner).length = chain.length ∧
    ∀ i, i < chain.length →
      ((backpropagate chain winner).getD i ⟨0, 0, none⟩).visits =
        (chain.getD i ⟨0, 0, none⟩).visits + 1 ∧
      ((backpropagate chain winner).getD i ⟨0, 0, none⟩).player =
        (chain.getD i ⟨0, 0, none⟩).player ∧
      ((backpropagate chain winner).getD i ⟨0, 0, none⟩).wins =
        (chain.getD i ⟨0, 0, none⟩).wins +
          win_credit (chain.getD i ⟨0, 0, none⟩).player winner ∧
      ((chain.getD i ⟨0, 0, none⟩).player = none →
        ((backpropagate chain winner).getD i ⟨0, 0, none⟩).wins =
          (chain.getD i ⟨0, 0, none⟩).wins) ∧
      (winner = none →
        ((backpropagate chain winner).getD i ⟨0, 0, none⟩).wins =
          (chain.getD i ⟨0, 0, none⟩).wins) ∧
      (∀ wp, winner = some wp →
        ((chain.getD i ⟨0, 0, none⟩).player = some wp →
          ((backpropagate chain winner).getD i ⟨0, 0, none⟩).wins =
            (chain.getD i ⟨0, 0, none⟩).wins + 1) ∧
        ((chain.getD i ⟨0, 0, none⟩).player ≠ some wp →
          ((backpropagate chain winner).getD i ⟨0, 0, none⟩).wins =
            (chain.getD i ⟨0, 0, none⟩).wins)) := by
  rw [backpropagate_eq_map]
  refine ⟨by simp, fun i hi => ?_⟩
  have hlen : i < (chain.map (fun n =>
      (⟨n.visits + 1, n.wins + win_credit n.player winner, n.player⟩ : BPNode))).length := by
    simpa using hi
  rw [List.getD_eq_getElem?_getD, List.getD_eq_getElem?_getD,
    List.getElem?_eq_getElem hlen, List.getElem?_eq_getElem hi]
  simp only [List.getElem_map, Option.getD_some]
  obtain ⟨hf1, hf2, hf3⟩ := bp_node_facts (chain.get ⟨i, hi⟩) winner
  exact ⟨trivial, trivial, trivial, hf1, hf2, hf3⟩

theorem C6_backpropagate_increments_witness :
    ((backpropagate [⟨0, 0, some 2⟩, ⟨3, 1, some 1⟩, ⟨5, 2, none⟩] (some 2)).getD 0
      ⟨0, 0, none⟩).visits = 1 :=
  ((C6_backpropagate_increments [⟨0, 0, some 2⟩, ⟨3, 1, some 1⟩, ⟨5, 2, none⟩]
    (some 2)).2 0 (by decide)).1

/-! Structural well-formedness of engine-built trees, and its preservation. -/

theorem sizeOf_snd_lt_of_mem {p : Nat × Node} {ch : List (Nat × Node)} (h : p ∈ ch) :
    sizeOf p.2 < sizeOf ch := by
  have h1 : sizeOf p < sizeOf ch := List.sizeOf_lt_of_mem h
  obtain ⟨a, t⟩ := p
  simp at h1 ⊢
  omega

/-- Invariant of every node the engine builds: untried moves are legal for the
node's board; every legal column is untried or already a child key; wins never
exceed visits; and every child is keyed by a legal column, carries its key as
its `move`, has been visited at least once, and is itself well formed. -/
inductive WFTree : Node → Prop where
  | mk : ∀ (b : Board) (pl mv : Option Nat) (u : List Nat) (ch : List (Nat × Node)) (v w : Nat),
      (∀ x ∈ u, x ∈ get_valid_locations b) →
      (∀ x ∈ get_valid_locations b, x ∈ u ∨ x ∈ ch.map Prod.fst) →
      w ≤ v →
      (∀ p ∈ ch, p.1 ∈ get_valid_locations b ∧ p.2.move = some p.1 ∧ 1 ≤ p.2.visits) →
      (∀ p ∈ ch, WFTree p.2) →
      WFTree (.mk b pl mv u ch v w)

theorem WFTree_inv {b : Board} {pl mv : Option Nat} {u : List Nat}
    {ch : List (Nat × Node)} {v w : Nat} (h : WFTree (.mk b pl mv u ch v w)) :
    (∀ x ∈ u, x ∈ get_valid_locations b) ∧
    (∀ x ∈ get_valid_locations b, x ∈ u ∨ x ∈ ch.map Prod.fst) ∧
    w ≤ v ∧
    (∀ p ∈ ch, p.1 ∈ get_valid_locations b ∧ p.2.move = some p.1 ∧ 1 ≤ p.2.visits) ∧
    (∀ p ∈ ch, WFTree p.2) := by
  cases h with
  | mk _ _ _ _ _ _ _ h1 h2 h3 h4 h5 => exact ⟨h1, h2, h3, h4, h5⟩

theorem WFTree_init (b : Board) (mv pl : Option Nat) : WFTree (Node.init b mv pl) :=
  WFTree.mk b pl mv (get_valid_locations b) [] 0 0
    (fun _ hx => hx) (fun _ hx => Or.inl hx) (Nat.le_refl 0)
    (fun _ hp => absurd hp (by simp)) (fun _ hp => absurd hp (by simp))

theorem map_fst_set {ch : List (Nat × Node)} {i : Nat} (hi : i < ch.length) (c2 : Node) :
    (ch.set i ((ch.get ⟨i, hi⟩).1, c2)).map Prod.fst = ch.map Prod.fst := by
  apply List.ext_getElem
  · simp
  · intro j h1 h2
    simp only [List.getElem_map, List.getElem_set]
    by_cases hj : i = j
    · subst hj
      simp [List.get_eq_getElem]
    · simp [hj]

/-- On a well-formed tree one search iteration cannot fail (the guarded
`max()`, `random.choice` and row lookup all succeed), and the updated tree is
again well formed. -/
theorem mcts_iteration_wft (sel : Node → Nat) (rng : Nat → Nat) :
    ∀ (t : Node) (pos : Nat), WFTree t →
      ∃ t2 pos2 winner, mcts_iteration sel rng t pos = some (t2, pos2, winner) ∧ WFTree t2
  | .mk b pl mv u ch v w, pos, hwf => by
    obtain ⟨inv1, inv2, inv3, inv4, inv5⟩ := WFTree_inv hwf
    by_cases hc1 : ¬ is_terminal_node b = true ∧ u = []
    · -- Selection: descend into the chosen child.
      obtain ⟨hterm, hu⟩ := hc1
      have hvne : get_valid_locations b ≠ [] := by
        intro he
        exact hterm (by simp [is_terminal_node, he])
      obtain ⟨x, hx⟩ := List.exists_mem_of_ne_nil _ hvne
      have hxk : x ∈ ch.map Prod.fst := by
        rcases inv2 x hx with h | h
        · rw [hu] at h; exact absurd h (by simp)
        · exact h
      have hchne : ch ≠ [] := by
        intro he; rw [he] at hxk; exact absurd hxk (by simp)
      have hlen : 0 < ch.length := List.length_pos.mpr hchne
      have hi : sel (.mk b pl mv u ch v w) % ch.length < ch.length := Nat.mod_lt _ hlen
      have hcmem : ch.get ⟨sel (.mk b pl mv u ch v w) % ch.length, hi⟩ ∈ ch :=
        List.get_mem _ _ _
      obtain ⟨hk, hmvc, hvis⟩ := inv4 _ hcmem
      have hcwf := inv5 _ hcmem
      obtain ⟨c2, pos2, winner, hit, hwf2⟩ :=
        mcts_iteration_wft sel rng (ch.get ⟨sel (.mk b pl mv u ch v w) % ch.length, hi⟩).2
          pos hcwf
      have hsc := mcts_select_child_of_ok sel rng ch _ pos hi c2 pos2 winner hit
      refine ⟨.mk b pl mv u
        (ch.set (sel (.mk b pl mv u ch v w) % ch.length)
          ((ch.get ⟨sel (.mk b pl mv u ch v w) % ch.length, hi⟩).1, c2))
        (v+1) (w + win_credit pl winner), pos2, winner, ?_, ?_⟩
      · unfold mcts_iteration
        rw [if_pos ⟨hterm, hu⟩, hsc]
      · have hbasic := mcts_iteration_basic hit
        apply WFTree.mk
        · exact inv1
        · intro x2 hx2
          rcases inv2 x2 hx2 with h | h
          · exact Or.inl h
          · right; rw [map_fst_set hi c2]; exact h
        · have := win_credit_le_one pl winner; omega
        · intro p hp
          rcases List.mem_or_eq_of_mem_set hp with hmem | heq
          · exact inv4 p hmem
          · subst heq
            refine ⟨hk, ?_, ?_⟩
            · rw [hbasic.2.2.2.1, hmvc]
            · rw [hbasic.1]; omega
        · intro p hp
          rcases List.mem_or_eq_of_mem_set hp with hmem | heq
          · exact inv5 p hmem
          · subst heq
            exact hwf2
    · by_cases hc2 : ¬ is_terminal_node b = true
      · -- Expansion from this node, then rollout from the new child.
        have hune : u ≠ [] := fun he => hc1 ⟨hc2, he⟩
        have hrc := random_choice_val hune (rng pos)
        have hmemu : u.getD (rng pos % u.length) 0 ∈ u := random_choice_mem hrc
        have hmval : u.getD (rng pos % u.length) 0 ∈ get_valid_locations b := inv1 _ hmemu
        obtain ⟨row, hrow⟩ := Option.isSome_iff_exists.mp
          (get_next_open_row_isSome (mem_get_valid_locations.mp hmval).2)
        obtain ⟨winner, pos2, hsim⟩ := simulate_isSome rng
          (count_empty_cells (drop_piece b row (u.getD (rng pos % u.length) 0)
            (next_player_piece b)) + 1)
          (drop_piece b row (u.getD (rng pos % u.length) 0) (next_player_piece b))
          (next_player_piece (drop_piece b row (u.getD (rng pos % u.length) 0)
            (next_player_piece b))) (pos + 1)
        refine ⟨.mk b pl mv (u.erase (u.getD (rng pos % u.length) 0))
          (ch ++ [(u.getD (rng pos % u.length) 0,
            .mk (drop_piece b row (u.getD (rng pos % u.length) 0) (next_player_piece b))
              (some (next_player_piece b)) (some (u.getD (rng pos % u.length) 0))
              (get_valid_locations (drop_piece b row (u.getD (rng pos % u.length) 0)
                (next_player_piece b))) [] 1
              (win_credit (some (next_player_piece b)) winner))])
          (v+1) (w + win_credit pl winner), pos2, winner, ?_, ?_⟩
        · unfold mcts_iteration
          rw [if_neg hc1, if_pos hc2, hrc]
          dsimp only
          rw [hrow]
          dsimp only
          rw [hsim]
        · apply WFTree.mk
          · intro x hx; exact inv1 _ (List.mem_of_mem_erase hx)
          · intro x hx
            rcases inv2 x hx with h | h
            · by_cases hxm : x = u.getD (rng pos % u.length) 0
              · subst hxm; right; simp
              · left; exact (List.mem_erase_of_ne hxm).mpr h
            · right; simp only [List.map_append, List.mem_append]; exact Or.inl h
          · have := win_credit_le_one pl winner; omega
          · intro p hp
            rcases List.mem_append.mp hp with hmem | hnew
            · exact inv4 p hmem
            · have hpe := List.mem_singleton.mp hnew
              subst hpe
              exact ⟨hmval, rfl, Nat.le_refl 1⟩
          · intro p hp
            rcases List.mem_append.mp hp with hmem | hnew
            · exact inv5 p hmem
            · have hpe := List.mem_singleton.mp hnew
              subst hpe
              apply WFTree.mk
              · exact fun x hx => hx
              · exact fun x hx => Or.inl hx
              · exact win_credit_le_one _ _
              · exact fun p2 hp2 => absurd hp2 (by simp)
              · exact fun p2 hp2 => absurd hp2 (by simp)
      · -- Terminal node: simulate from it, bump counters.
        have hterm : is_terminal_node b = true := by
          by_contra hbc
          exact hc2 hbc
        obtain ⟨winner, hit⟩ := mcts_iteration_terminal hterm sel rng pl mv u ch v w pos
        refine ⟨_, pos, winner, hit, ?_⟩
        apply WFTree.mk
        · exact inv1
        · exact inv2
        · have := win_credit_le_one pl winner; omega
        · exact inv4
        · exact inv5
termination_by t _ _ => sizeOf t
decreasing_by
  have h1 : sizeOf (ch.get ⟨sel (.mk b pl mv u ch v w) % ch.length, hi⟩).2 < sizeOf ch :=
    sizeOf_snd_lt_of_mem (List.get_mem _ _ _)
  simp only [List.get_eq_getElem] at h1
  simp
  omega

theorem mcts_loop_wft (sel : Node → Nat) (rng : Nat → Nat) :
    ∀ (n : Nat) (t : Node) (pos : Nat), WFTree t →
      ∃ t2 pos2, mcts_loop sel rng n t pos = some (t2, pos2) ∧ WFTree t2 := by
  intro n
  induction n with
  | zero => intro t pos hwf; exact ⟨t, pos, rfl, hwf⟩
  | succ n ih =>
    intro t pos hwf
    obtain ⟨t1, pos1, winner, hit, hwf1⟩ := mcts_iteration_wft sel rng t pos hwf
    obtain ⟨t2, pos2, hloop, hwf2⟩ := ih t1 pos1 hwf1
    refine ⟨t2, pos2, ?_, hwf2⟩
    unfold mcts_loop
    rw [hit]
    exact hloop

theorem mcts_loop_board (sel : Node → Nat) (rng : Nat → Nat) :
    ∀ (n : Nat) (t : Node) (pos : Nat) (t2 : Node) (pos2 : Nat),
      mcts_loop sel rng n t pos = some (t2, pos2) → t2.board = t.board := by
  intro n
  induction n with
  | zero =>
    intro t pos t2 pos2 h
    simp only [mcts_loop, Option.some_inj, Prod.mk.injEq] at h
    rw [← h.1]
  | succ n ih =>
    intro t pos t2 pos2 h
    unfold mcts_loop at h
    cases hit : mcts_iteration sel rng t pos with
    | none => rw [hit] at h; exact absurd h (by simp)
    | some x =>
      obtain ⟨tm, pm, wm⟩ := x
      rw [hit] at h
      rw [ih tm pm t2 pos2 h, (mcts_iteration_basic hit).2.1]

theorem WFTree_children_facts {t : Node} (h : WFTree t) :
    (∀ p ∈ t.children, p.1 ∈ get_valid_locations t.board ∧ p.2.move = some p.1 ∧
      1 ≤ p.2.visits) ∧ (∀ p ∈ t.children, WFTree p.2) ∧ t.wins ≤ t.visits ∧
    (∀ x ∈ t.untried_moves, x ∈ get_valid_locations t.board) ∧
    (∀ x ∈ get_valid_locations t.board, x ∈ t.untried_moves ∨ x ∈ t.children.map Prod.fst) := by
  cases t with
  | mk b pl mv u ch v w =>
    obtain ⟨inv1, inv2, inv3, inv4, inv5⟩ := WFTree_inv h
    exact ⟨inv4, inv5, inv3, inv1, inv2⟩

/-! Facts about `best_child_by_visits` (first maximal element, Python `max`). -/

theorem best_child_foldl_mem :
    ∀ (cs : List (Nat × Node)) (acc : Nat × Node),
      cs.foldl (fun acc y => if acc.2.visits < y.2.visits then y else acc) acc ∈ acc :: cs := by
  intro cs
  induction cs with
  | nil => intro acc; simp
  | cons y ys ih =>
    intro acc
    simp only [List.foldl_cons]
    rcases List.mem_cons.mp (ih (if acc.2.visits < y.2.visits then y else acc)) with h1 | h1
    · rw [h1]
      by_cases hc : acc.2.visits < y.2.visits
      · simp [hc]
      · simp [hc]
    · simp [h1]

theorem best_child_foldl_ge :
    ∀ (cs : List (Nat × Node)) (acc : Nat × Node),
      acc.2.visits ≤
        (cs.foldl (fun acc y => if acc.2.visits < y.2.visits then y else acc) acc).2.visits ∧
      ∀ p ∈ cs, p.2.visits ≤
        (cs.foldl (fun acc y => if acc.2.visits < y.2.visits then y else acc) acc).2.visits := by
  intro cs
  induction cs with
  | nil => intro acc; exact ⟨Nat.le_refl _, by simp⟩
  | cons y ys ih =>
    intro acc
    simp only [List.foldl_cons]
    obtain ⟨h1, h2⟩ := ih (if acc.2.visits < y.2.visits then y else acc)
    constructor
    · refine Nat.le_trans ?_ h1
      by_cases hc : acc.2.visits < y.2.visits
      · rw [if_pos hc]; omega
      · rw [if_neg hc]
    · intro p hp
      rcases List.mem_cons.mp hp with hpe | hpm
      · subst hpe
        refine Nat.le_trans ?_ h1
        by_cases hc : acc.2.visits < p.2.visits
        · rw [if_pos hc]
        · rw [if_neg hc]; omega
      · exact h2 p hpm

theorem best_child_by_visits_mem (c0 : Nat × Node) (cs : List (Nat × Node)) :
    best_child_by_visits c0 cs ∈ c0 :: cs := best_child_foldl_mem cs c0

theorem best_child_by_visits_ge (c0 : Nat × Node) (cs : List (Nat × Node)) :
    ∀ p ∈ c0 :: cs, p.2.visits ≤ (best_child_by_visits c0 cs).2.visits := by
  intro p hp
  rcases List.mem_cons.mp hp with h | h
  · subst h; exact (best_child_foldl_ge cs p).1
  · exact (best_child_foldl_ge cs c0).2 p h

/-- C2 — on any board with at least one legal column the search returns
normally (no guarded operation can raise), and the chosen column is a legal
column of the root board. -/
theorem C2_search_returns_legal_column (sel : Node → Nat) (rng : Nat → Nat)
    (b : Board) (N : Nat) (hv : get_valid_locations b ≠ []) :
    ∃ col stats, MCTS_Search sel rng b N = some (col, stats) ∧
      col ∈ get_valid_locations b := by
  obtain ⟨root, pos, hloop, hwf⟩ := mcts_loop_wft sel rng N (Node.init b none none) 0
    (WFTree_init b none none)
  have hboard : root.board = b := by
    have h := mcts_loop_board sel rng N _ 0 root pos hloop
    simpa [Node.init] using h
  unfold MCTS_Search
  rw [hloop]
  dsimp only
  cases hch : root.children with
  | nil =>
    dsimp only
    rw [random_choice_val hv (rng pos)]
    refine ⟨_, [], rfl, ?_⟩
    have hlt : rng pos % (get_valid_locations b).length < (get_valid_locations b).length :=
      Nat.mod_lt _ (List.length_pos.mpr hv)
    rw [List.getD_eq_getElem?_getD, List.getElem?_eq_getElem hlt]
    simp only [Option.getD_some]
    exact List.getElem_mem hlt
  | cons c0 cs =>
    dsimp only
    have hmem : best_child_by_visits c0 cs ∈ root.children := by
      rw [hch]; exact best_child_by_visits_mem c0 cs
    obtain ⟨hkey, hmv, _⟩ := (WFTree_children_facts hwf).1 _ hmem
    refine ⟨(best_child_by_visits c0 cs).2.move.getD 0, _, rfl, ?_⟩
    rw [hmv]
    simp only [Option.getD_some]
    rw [← hboard]
    exact hkey

/-- Sample board: the initial empty board. -/
def sample_empty_board : Board := fun _ _ => EMPTY

theorem C2_search_returns_legal_column_witness :
    ∃ col stats, MCTS_Search (fun _ => 0) (fun _ => 0) sample_empty_board 1 =
      some (col, stats) ∧ col ∈ get_valid_locations sample_empty_board :=
  C2_search_returns_legal_column (fun _ => 0) (fun _ => 0) sample_empty_board 1 (by decide)

/-! Facts about `max_child_visits`. -/

theorem foldl_nat_max_ge_init : ∀ (l : List Nat) (a : Nat), a ≤ l.foldl Nat.max a := by
  intro l
  induction l with
  | nil => intro a; exact Nat.le_refl a
  | cons x xs ih =>
    intro a
    rw [List.foldl_cons]
    exact Nat.le_trans (Nat.le_max_left a x) (ih (Nat.max a x))

theorem foldl_nat_max_ge_mem : ∀ (l : List Nat) (a x : Nat), x ∈ l → x ≤ l.foldl Nat.max a := by
  intro l
  induction l with
  | nil => intro a x hx; exact absurd hx (by simp)
  | cons y ys ih =>
    intro a x hx
    rw [List.foldl_cons]
    rcases List.mem_cons.mp hx with h | h
    · subst h
      exact Nat.le_trans (Nat.le_max_right a x) (foldl_nat_max_ge_init ys (Nat.max a x))
    · exact ih (Nat.max a y) x h

theorem foldl_nat_max_le : ∀ (l : List Nat) (a m : Nat), a ≤ m → (∀ x ∈ l, x ≤ m) →
    l.foldl Nat.max a ≤ m := by
  intro l
  induction l with
  | nil => intro a m ha _; exact ha
  | cons y ys ih =>
    intro a m ha hall
    rw [List.foldl_cons]
    exact ih (Nat.max a y) m (Nat.max_le.mpr ⟨ha, hall y (by simp)⟩)
      (fun x hx => hall x (by simp [hx]))

theorem max_child_visits_ge {ch : List (Nat × Node)} {p : Nat × Node} (hp : p ∈ ch) :
    p.2.visits ≤ max_child_visits ch :=
  foldl_nat_max_ge_mem _ 0 _ (List.mem_map_of_mem _ hp)

theorem max_child_visits_le {ch : List (Nat × Node)} {m : Nat}
    (h : ∀ p ∈ ch, p.2.visits ≤ m) : max_child_visits ch ≤ m := by
  apply foldl_nat_max_le _ 0 m (Nat.zero_le m)
  intro x hx
  obtain ⟨p, hp, he⟩ := List.mem_map.mp hx
  rw [← he]
  exact h p hp

/-- C7 — when the root has at least one child after the iterations finish,
the search returns the move of a child with the greatest visits count (not
the greatest win rate); the statistics map exactly the root's expanded
columns, every winRate and visitRatio lies in `[0, 1]` (each visitRatio is
that child's visits divided by the maximum child visits), and the
most-visited child's visitRatio is exactly `1`. -/
theorem C7_most_visited_child_and_stats (sel : Node → Nat) (rng : Nat → Nat)
    (b : Board) (N : Nat) (root : Node) (pos : Nat) (c0 : Nat × Node)
    (cs : List (Nat × Node))
    (hloop : mcts_loop sel rng N (Node.init b none none) 0 = some (root, pos))
    (hch : root.children = c0 :: cs) :
    ∃ best ∈ root.children,
      (∀ p ∈ root.children, p.2.visits ≤ best.2.visits) ∧
      best.2.visits = max_child_visits root.children ∧
      best.2.move = some best.1 ∧
      ∃ stats, MCTS_Search sel rng b N = some (best.2.move.getD 0, stats) ∧
        stats.map Prod.fst = root.children.map Prod.fst ∧
        (∀ q ∈ stats, 0 ≤ q.2.win_rate ∧ q.2.win_rate ≤ 1 ∧
          0 ≤ q.2.visits_ratio ∧ q.2.visits_ratio ≤ 1) ∧
        ∃ s, (best.1, s) ∈ stats ∧ s.visits = best.2.visits ∧ s.visits_ratio = 1 := by
  have hwf : WFTree root := by
    obtain ⟨root2, pos2, hloop2, hwf2⟩ := mcts_loop_wft sel rng N (Node.init b none none) 0
      (WFTree_init b none none)
    rw [hloop] at hloop2
    simp only [Option.some_inj, Prod.mk.injEq] at hloop2
    rw [hloop2.1]
    exact hwf2
  have hcf := WFTree_children_facts hwf
  have hmem : best_child_by_visits c0 cs ∈ root.children := by
    rw [hch]; exact best_child_by_visits_mem c0 cs
  have hge : ∀ p ∈ root.children, p.2.visits ≤ (best_child_by_visits c0 cs).2.visits := by
    rw [hch]; exact best_child_by_visits_ge c0 cs
  have hmax : (best_child_by_visits c0 cs).2.visits = max_child_visits root.children :=
    Nat.le_antisymm (max_child_visits_ge hmem) (max_child_visits_le hge)
  have hc0mem : c0 ∈ root.children := by rw [hch]; simp
  have hvpos : 0 < max_child_visits root.children := by
    have h1 : 1 ≤ c0.2.visits := (hcf.1 c0 hc0mem).2.2
    have h2 := max_child_visits_ge hc0mem
    omega
  refine ⟨best_child_by_visits c0 cs, hmem, hge, hmax, (hcf.1 _ hmem).2.1, ?_⟩
  unfold MCTS_Search
  rw [hloop]
  dsimp only
  rw [hch]
  dsimp only
  refine ⟨_, rfl, ?_, ?_, ?_⟩
  · rw [List.map_map]
    rfl
  · intro q hq
    obtain ⟨p, hp, he⟩ := List.mem_map.mp hq
    have hpmem : p ∈ root.children := by rw [hch]; exact hp
    have hwl : p.2.wins ≤ p.2.visits :=
      (WFTree_children_facts (hcf.2.1 p hpmem)).2.2.1
    rw [← he]
    dsimp only
    refine ⟨?_, ?_, ?_, ?_⟩
    · split
      · positivity
      · exact le_refl 0
    · split
      · rename_i hvp
        rw [div_le_one (by exact_mod_cast hvp)]
        exact_mod_cast hwl
      · exact zero_le_one
    · split
      · positivity
      · exact le_refl 0
    · split
      · rename_i hmp
        rw [div_le_one (by exact_mod_cast hmp)]
        have := max_child_visits_ge hpmem
        rw [hch] at this
        exact_mod_cast this
      · exact zero_le_one
  · refine ⟨_, List.mem_map_of_mem _ (best_child_by_visits_mem c0 cs), rfl, ?_⟩
    dsimp only
    rw [if_pos (by rw [← hch]; exact hvpos)]
    rw [show (best_child_by_visits c0 cs).2.visits = max_child_visits (c0 :: cs) by
      rw [hmax, hch]]
    rw [div_self]
    have : (0 : ℚ) < (max_child_visits (c0 :: cs) : ℚ) := by
      rw [← hch] at *
      exact_mod_cast hvpos
    exact ne_of_gt this

/-- Sample board: a full 6×7 board with no four-in-a-row for either piece
(each column's pattern shifts every two columns). -/
def sample_draw_board : Board := fun r c => if (r + c / 2) % 2 = 0 then 1 else 2

/-- Sample board: `sample_draw_board` with the top cell of column 6 empty —
non-terminal, exactly one legal column. -/
def sample_near_full_board : Board :=
  fun r c => if r = 5 ∧ c = 6 then 0 else sample_draw_board r c

theorem C7_most_visited_child_and_stats_witness :
    ∃ col stats,
      MCTS_Search (fun _ => 0) (fun _ => 0) sample_near_full_board 1 = some (col, stats) ∧
      ∃ s, (col, s) ∈ stats ∧ s.visits_ratio = 1 := by
  obtain ⟨best, hmem, hge, hmax, hbm, stats, hsearch, hmap, hbounds, s, hsmem, hsv, hs1⟩ :=
    C7_most_visited_child_and_stats (fun _ => 0) (fun _ => 0) sample_near_full_board 1
      (Node.mk sample_near_full_board none none []
        [(6, Node.mk (drop_piece sample_near_full_board 5 6 1) (some 1) (some 6) [] [] 1 0)]
        1 0) 1
      (6, Node.mk (drop_piece sample_near_full_board 5 6 1) (some 1) (some 6) [] [] 1 0) []
      rfl rfl
  rw [hbm] at hsearch
  simp only [Option.getD_some] at hsearch
  exact ⟨best.1, stats, hsearch, s, hsmem, hs1⟩

/-! Gravity-packedness and its preservation. -/

/-- No empty cell sits below a filled cell in any in-range column. -/
def GravityPacked (b : Board) : Prop :=
  ∀ r < ROW_COUNT - 1, ∀ c < COLUMN_COUNT, b (r+1) c ≠ EMPTY → b r c ≠ EMPTY

instance (b : Board) : Decidable (GravityPacked b) := by
  unfold GravityPacked
  infer_instance

/-- Placing a piece in the row found by `get_next_open_row` preserves
gravity-packedness: the row is the lowest empty one of its column. -/
theorem drop_piece_packed {b : Board} {col row piece : Nat}
    (hp : GravityPacked b) (hrow : get_next_open_row b col = some row)
    (hpiece : piece ≠ EMPTY) :
    GravityPacked (drop_piece b row col piece) := by
  obtain ⟨hempty, hrlt, hbelow⟩ := get_next_open_row_spec hrow
  intro r hr c hc hfill
  unfold drop_piece at hfill ⊢
  by_cases h1 : r = row ∧ c = col
  · rw [if_pos h1]
    exact hpiece
  · rw [if_neg h1]
    by_cases h2 : r + 1 = row ∧ c = col
    · obtain ⟨h2a, h2b⟩ := h2
      subst h2b
      exact hbelow r (by omega)
    · rw [if_neg h2] at hfill
      exact hp r hr c hc hfill

theorem next_player_piece_ne_empty (b : Board) : next_player_piece b ≠ EMPTY := by
  unfold next_player_piece EMPTY AI_PIECE PLAYER_PIECE
  split <;> simp

/-- Every board stored in the tree is gravity-packed. -/
inductive TreePacked : Node → Prop where
  | mk : ∀ (b : Board) (pl mv : Option Nat) (u : List Nat) (ch : List (Nat × Node)) (v w : Nat),
      GravityPacked b →
      (∀ p ∈ ch, TreePacked p.2) →
      TreePacked (.mk b pl mv u ch v w)

theorem TreePacked_inv {b : Board} {pl mv : Option Nat} {u : List Nat}
    {ch : List (Nat × Node)} {v w : Nat} (h : TreePacked (.mk b pl mv u ch v w)) :
    GravityPacked b ∧ ∀ p ∈ ch, TreePacked p.2 := by
  cases h with
  | mk _ _ _ _ _ _ _ h1 h2 => exact ⟨h1, h2⟩

/-- One iteration preserves gravity-packedness of every board in the tree:
the only new board is the expansion child's, built by one
`get_next_open_row`-guided placement on its parent's packed board. -/
theorem mcts_iteration_packed (sel : Node → Nat) (rng : Nat → Nat) :
    ∀ (t : Node) (pos : Nat), TreePacked t →
      ∀ (t2 : Node) (pos2 : Nat) (winner : Option Nat),
        mcts_iteration sel rng t pos = some (t2, pos2, winner) → TreePacked t2
  | .mk b pl mv u ch v w, pos, hpk, t2, pos2, winner, h => by
    obtain ⟨hpb, hpch⟩ := TreePacked_inv hpk
    unfold mcts_iteration at h
    by_cases hc1 : ¬ is_terminal_node b = true ∧ u = []
    · rw [if_pos hc1] at h
      cases hs : mcts_select_child sel rng (sel (.mk b pl mv u ch v w) % ch.length) ch pos with
      | none => rw [hs] at h; exact absurd h (by simp)
      | some x =>
        obtain ⟨ch2, p2, wn⟩ := x
        rw [hs] at h
        simp only [Option.some_inj, Prod.mk.injEq] at h
        obtain ⟨h1, h2, h3⟩ := h
        subst h2; subst h3
        obtain ⟨hi, c2, hit, hset⟩ := mcts_select_child_spec sel rng ch _ pos ch2 _ _ hs
        rw [← h1]
        apply TreePacked.mk
        · exact hpb
        · intro p hp
          rw [hset] at hp
          rcases List.mem_or_eq_of_mem_set hp with hmem | heq
          · exact hpch p hmem
          · subst heq
            exact mcts_iteration_packed sel rng _ pos
              (hpch _ (List.get_mem _ _ _)) c2 _ _ hit
    · rw [if_neg hc1] at h
      by_cases hc2 : ¬ is_terminal_node b = true
      · rw [if_pos hc2] at h
        cases hrc : random_choice u (rng pos) with
        | none => rw [hrc] at h; exact absurd h (by simp)
        | some move =>
          rw [hrc] at h
          dsimp only at h
          cases hro : get_next_open_row b move with
          | none => rw [hro] at h; exact absurd h (by simp)
          | some row =>
            rw [hro] at h
            dsimp only at h
            cases hsim : simulate_random_playout rng
                (count_empty_cells (drop_piece b row move (next_player_piece b)) + 1)
                (drop_piece b row move (next_player_piece b))
                (next_player_piece (drop_piece b row move (next_player_piece b))) (pos + 1) with
            | none => rw [hsim] at h; exact absurd h (by simp)
            | some x =>
              obtain ⟨wn, p2⟩ := x
              rw [hsim] at h
              simp only [Option.some_inj, Prod.mk.injEq] at h
              obtain ⟨h1, h2, h3⟩ := h
              subst h2; subst h3
              rw [← h1]
              apply TreePacked.mk
              · exact hpb
              · intro p hp
                rcases List.mem_append.mp hp with hmem | hnew
                · exact hpch p hmem
                · have hpe := List.mem_singleton.mp hnew
                  subst hpe
                  apply TreePacked.mk
                  · exact drop_piece_packed hpb hro (next_player_piece_ne_empty b)
                  · exact fun p2 hp2 => absurd hp2 (by simp)
      · rw [if_neg hc2] at h
        cases hsim : simulate_random_playout rng (count_empty_cells b + 1) b
            (next_player_piece b) pos with
        | none => rw [hsim] at h; exact absurd h (by simp)
        | some x =>
          obtain ⟨wn, p2⟩ := x
          rw [hsim] at h
          simp only [Option.some_inj, Prod.mk.injEq] at h
          obtain ⟨h1, h2, h3⟩ := h
          subst h2; subst h3
          rw [← h1]
          exact TreePacked.mk b pl mv u ch (v+1) _ hpb hpch
termination_by t _ _ _ _ _ _ => sizeOf t
decreasing_by
  have h1 : sizeOf (ch.get ⟨sel (.mk b pl mv u ch v w) % ch.length, hi⟩).2 < sizeOf ch :=
    sizeOf_snd_lt_of_mem (List.get_mem _ _ _)
  simp only [List.get_eq_getElem] at h1
  simp
  omega

theorem mcts_loop_packed (sel : Node → Nat) (rng : Nat → Nat) :
    ∀ (n : Nat) (t : Node) (pos : Nat) (t2 : Node) (pos2 : Nat),
      TreePacked t → mcts_loop sel rng n t pos = some (t2, pos2) → TreePacked t2 := by
  intro n
  induction n with
  | zero =>
    intro t pos t2 pos2 hpk h
    simp only [mcts_loop, Option.some_inj, Prod.mk.injEq] at h
    rw [← h.1]
    exact hpk
  | succ n ih =>
    intro t pos t2 pos2 hpk h
    unfold mcts_loop at h
    cases hit : mcts_iteration sel rng t pos with
    | none => rw [hit] at h; exact absurd h (by simp)
    | some x =>
      obtain ⟨tm, pm, wm⟩ := x
      rw [hit] at h
      exact ih tm pm t2 pos2 (mcts_iteration_packed sel rng t pos hpk tm pm wm hit) h

/-- C9 — gravity is enforced by construction: a placement through
`get_next_open_row` fills the lowest empty row of its column and preserves
bottom-packedness of the board (this is the single board-producing step of
both the expansion and the rollout paths), and consequently, starting from a
gravity-packed root board, every board of every node of the search tree is
again gravity-packed. -/
theorem C9_gravity_packed_invariant :
    (∀ (b : Board) (col row piece : Nat), GravityPacked b → piece ≠ EMPTY →
      get_next_open_row b col = some row →
      GravityPacked (drop_piece b row col piece)) ∧
    (∀ (sel : Node → Nat) (rng : Nat → Nat) (b : Board) (N : Nat) (t : Node) (pos : Nat),
      GravityPacked b →
      mcts_loop sel rng N (Node.init b none none) 0 = some (t, pos) →
      TreePacked t) := by
  constructor
  · intro b col row piece hp hpc hrow
    exact drop_piece_packed hp hrow hpc
  · intro sel rng b N t pos hp hloop
    exact mcts_loop_packed sel rng N _ 0 t pos
      (TreePacked.mk b none none (get_valid_locations b) [] 0 0 hp
        (fun _ hm => absurd hm (by simp))) hloop

theorem C9_gravity_packed_invariant_witness :
    GravityPacked (drop_piece sample_empty_board 0 3 2) :=
  C9_gravity_packed_invariant.1 sample_empty_board 3 0 2 (by decide) (by decide) (by decide)

/-! Conservation of the root children's visit counts. -/

/-- Total visits over a children mapping. -/
def sum_child_visits (ch : List (Nat × Node)) : Nat :=
  (ch.map (fun p => p.2.visits)).sum

theorem sum_child_visits_set :
    ∀ (ch : List (Nat × Node)) (j : Nat) (hj : j < ch.length) (m : Nat) (c2 : Node),
      sum_child_visits (ch.set j (m, c2)) + (ch.get ⟨j, hj⟩).2.visits =
        sum_child_visits ch + c2.visits := by
  intro ch
  induction ch with
  | nil => intro j hj; exact absurd hj (by simp)
  | cons hd tl ih =>
    intro j hj m c2
    cases j with
    | zero =>
      simp [sum_child_visits]
      omega
    | succ j =>
      have hj2 : j < tl.length := Nat.lt_of_succ_lt_succ hj
      have hrec := ih j hj2 m c2
      simp only [sum_child_visits, List.map_cons, List.sum_cons, List.set_cons_succ,
        List.get_cons_succ] at hrec ⊢
      omega

theorem sum_child_visits_append (ch : List (Nat × Node)) (x : Nat × Node) :
    sum_child_visits (ch ++ [x]) = sum_child_visits ch + x.2.visits := by
  simp [sum_child_visits]

/-- On a non-terminal node one iteration adds exactly one visit to exactly
one child slot: either an existing child at position `j` has its visits
bumped by one, or a brand-new child with one visit is appended; either way
the children's visit sum grows by exactly one. -/
theorem mcts_iteration_children {sel : Node → Nat} {rng : Nat → Nat}
    {b : Board} {pl mv : Option Nat} {u : List Nat} {ch : List (Nat × Node)}
    {v w pos : Nat} {t2 : Node} {pos2 : Nat} {winner : Option Nat}
    (hterm : is_terminal_node b = false)
    (h : mcts_iteration sel rng (.mk b pl mv u ch v w) pos = some (t2, pos2, winner)) :
    sum_child_visits t2.children = sum_child_visits ch + 1 ∧
    ((∃ j, ∃ hj : j < ch.length, ∃ c2 : Node,
        c2.visits = (ch.get ⟨j, hj⟩).2.visits + 1 ∧
        t2.children = ch.set j ((ch.get ⟨j, hj⟩).1, c2)) ∨
      (∃ mvx : Nat, ∃ c2 : Node, c2.visits = 1 ∧ t2.children = ch ++ [(mvx, c2)])) := by
  unfold mcts_iteration at h
  by_cases hc1 : ¬ is_terminal_node b = true ∧ u = []
  · rw [if_pos hc1] at h
    cases hs : mcts_select_child sel rng (sel (.mk b pl mv u ch v w) % ch.length) ch pos with
    | none => rw [hs] at h; exact absurd h (by simp)
    | some x =>
      obtain ⟨ch2, p2, wn⟩ := x
      rw [hs] at h
      simp only [Option.some_inj, Prod.mk.injEq] at h
      obtain ⟨h1, h2, h3⟩ := h
      subst h2; subst h3
      obtain ⟨hi, c2, hit, hset⟩ := mcts_select_child_spec sel rng ch _ pos ch2 _ _ hs
      have hvc2 : c2.visits = (ch.get ⟨_, hi⟩).2.visits + 1 := by
        have hb := (mcts_iteration_basic hit).1
        rw [hb]
      constructor
      · rw [← h1]
        simp only [Node.children_mk]
        rw [hset]
        have hsum := sum_child_visits_set ch _ hi (ch.get ⟨_, hi⟩).1 c2
        omega
      · exact Or.inl ⟨_, hi, c2, hvc2, by rw [← h1]; simp only [Node.children_mk]; exact hset⟩
  · rw [if_neg hc1] at h
    by_cases hc2 : ¬ is_terminal_node b = true
    · rw [if_pos hc2] at h
      cases hrc : random_choice u (rng pos) with
      | none => rw [hrc] at h; exact absurd h (by simp)
      | some move =>
        rw [hrc] at h
        dsimp only at h
        cases hro : get_next_open_row b move with
        | none => rw [hro] at h; exact absurd h (by simp)
        | some row =>
          rw [hro] at h
          dsimp only at h
          cases hsim : simulate_random_playout rng
              (count_empty_cells (drop_piece b row move (next_player_piece b)) + 1)
              (drop_piece b row move (next_player_piece b))
              (next_player_piece (drop_piece b row move (next_player_piece b))) (pos + 1) with
          | none => rw [hsim] at h; exact absurd h (by simp)
          | some x =>
            obtain ⟨wn, p2⟩ := x
            rw [hsim] at h
            simp only [Option.some_inj, Prod.mk.injEq] at h
            obtain ⟨h1, h2, h3⟩ := h
            subst h2; subst h3
            constructor
            · rw [← h1]
              simp only [Node.children_mk]
              rw [sum_child_visits_append]
              simp
            · refine Or.inr ⟨move,
                .mk (drop_piece b row move (next_player_piece b))
                  (some (next_player_piece b)) (some move)
                  (get_valid_locations (drop_piece b row move (next_player_piece b))) [] 1
                  (win_credit (some (next_player_piece b)) wn), rfl, ?_⟩
              rw [← h1]
              simp only [Node.children_mk]
    · exfalso
      rw [Decidable.not_not] at hc2
      rw [hc2] at hterm
      exact absurd hterm (by simp)

theorem mcts_loop_children_sum (sel : Node → Nat) (rng : Nat → Nat) {b : Board}
    (hterm : is_terminal_node b = false) :
    ∀ (n : Nat) (t : Node) (pos : Nat) (t2 : Node) (pos2 : Nat),
      t.board = b → mcts_loop sel rng n t pos = some (t2, pos2) →
      sum_child_visits t2.children = sum_child_visits t.children + n := by
  intro n
  induction n with
  | zero =>
    intro t pos t2 pos2 hb h
    simp only [mcts_loop, Option.some_inj, Prod.mk.injEq] at h
    rw [← h.1]
    omega
  | succ n ih =>
    intro t pos t2 pos2 hb h
    unfold mcts_loop at h
    cases hit : mcts_iteration sel rng t pos with
    | none => rw [hit] at h; exact absurd h (by simp)
    | some x =>
      obtain ⟨tm, pm, wm⟩ := x
      rw [hit] at h
      cases t with
      | mk tb tpl tmv tu tch tv tw =>
        have hb2 : tb = b := by simpa using hb
        have hchi := (mcts_iteration_children (hb2 ▸ hterm) hit).1
        have hbm : tm.board = b := by
          rw [(mcts_iteration_basic hit).2.1]
          simpa using hb
        have hrec := ih tm pm t2 pos2 hbm h
        simp only [Node.children_mk] at hchi ⊢
        omega

/-- C10 — for a non-terminal root and `N ≥ 1` iterations, each iteration
increments the visit counter of exactly one child slot of the root (the
backpropagated node is at depth ≥ 1: an existing child is bumped or a new
child arrives with one visit), so the root children's visit counts sum to
exactly `N` after the search, and every child ever created carries at least
one visit. -/
theorem C10_children_visit_conservation (sel : Node → Nat) (rng : Nat → Nat)
    (b : Board) (N : Nat) (hterm : is_terminal_node b = false) (hN : 1 ≤ N)
    (t : Node) (pos : Nat)
    (h : mcts_loop sel rng N (Node.init b none none) 0 = some (t, pos)) :
    sum_child_visits t.children = N ∧
    (∀ p ∈ t.children, 1 ≤ p.2.visits) ∧
    (∀ (t0 : Node) (pos0 : Nat) (t1 : Node) (pos1 : Nat) (winner : Option Nat),
      t0.board = b →
      mcts_iteration sel rng t0 pos0 = some (t1, pos1, winner) →
      sum_child_visits t1.children = sum_child_visits t0.children + 1 ∧
      ((∃ j, ∃ hj : j < t0.children.length, ∃ c2 : Node,
          c2.visits = (t0.children.get ⟨j, hj⟩).2.visits + 1 ∧
          t1.children = t0.children.set j ((t0.children.get ⟨j, hj⟩).1, c2)) ∨
        (∃ mvx : Nat, ∃ c2 : Node, c2.visits = 1 ∧
          t1.children = t0.children ++ [(mvx, c2)]))) := by
  refine ⟨?_, ?_, ?_⟩
  · have hsum := mcts_loop_children_sum sel rng hterm N (Node.init b none none) 0 t pos
      (by simp [Node.init]) h
    simpa [Node.init, sum_child_visits] using hsum
  · intro p hp
    obtain ⟨t2, pos2, hl2, hwf⟩ := mcts_loop_wft sel rng N (Node.init b none none) 0
      (WFTree_init b none none)
    rw [h] at hl2
    simp only [Option.some_inj, Prod.mk.injEq] at hl2
    rw [← hl2.1] at hwf
    exact ((WFTree_children_facts hwf).1 p hp).2.2
  · intro t0 pos0 t1 pos1 winner hb0 hit
    cases t0 with
    | mk b0 pl0 mv0 u0 ch0 v0 w0 =>
      have hb2 : b0 = b := by simpa using hb0
      subst hb2
      have := mcts_iteration_children hterm hit
      simpa using this

theorem C10_children_visit_conservation_witness :
    ∃ t pos,
      mcts_loop (fun _ => 0) (fun _ => 0) 1 (Node.init sample_near_full_board none none) 0 =
        some (t, pos) ∧ sum_child_visits t.children = 1 := by
  refine ⟨Node.mk sample_near_full_board none none []
    [(6, Node.mk (drop_piece sample_near_full_board 5 6 1) (some 1) (some 6) [] [] 1 0)]
    1 0, 1, rfl, ?_⟩
  exact (C10_children_visit_conservation (fun _ => 0) (fun _ => 0) sample_near_full_board 1
    (by decide) (by decide) _ 1 rfl).1

/-!
Heap model for the aliasing discipline (C8). The numpy boards of the source
are mutable objects: `drop_piece` mutates its argument in place, and
`.copy()` allocates a fresh array. To state that a search never mutates the
caller's board through the caller's reference, boards live in a heap (a list
of board values), references are indices, and the engine functions are
repeated here verbatim over references: every `.copy()` of the source
(root copy at line 213, expansion copy at line 164, rollout copy at line
182) becomes an allocation, and every `drop_piece` a store. The frame
theorem then shows a search call only ever writes to references it allocated
itself, so every pre-existing heap entry — the caller's board in
particular — is untouched.
-/

/-- A heap of allocated numpy arrays; a reference is an index. -/
abbrev Heap := List Board

/-- Dereference (out-of-range reads return an empty board; never relied on). -/
def heap_read (h : Heap) (r : Nat) : Board := h.getD r (fun _ _ => EMPTY)

/-- Source `board.copy()`: allocate a fresh entry holding the same value. -/
def heap_copy (h : Heap) (r : Nat) : Heap × Nat := (h ++ [heap_read h r], h.length)

/-- Source `drop_piece(board, row, col, piece)` as the in-place store it is. -/
def heap_drop (h : Heap) (r row col piece : Nat) : Heap :=
  h.set r (drop_piece (heap_read h r) row col piece)

/-- Tree node over a board reference instead of a board value. -/
inductive NodeH : Type where
  | mk (board_ref : Nat) (player : Option Nat) (move : Option Nat)
       (untried_moves : List Nat) (children : List (Nat × NodeH))
       (visits : Nat) (wins : Nat)

/-- Projection: the children mapping. -/
def NodeH.children : NodeH → List (Nat × NodeH)
  | .mk _ _ _ _ ch _ _ => ch

/-- Projection: the move that produced this node. -/
def NodeH.move : NodeH → Option Nat
  | .mk _ _ mv _ _ _ _ => mv

/-- Projection: the visits counter. -/
def NodeH.visits : NodeH → Nat
  | .mk _ _ _ _ _ v _ => v

/-- The `while True` loop of `simulate_random_playout`, mutating the local
copy `b` at reference `bref`. -/
def simulate_loopH (rng : Nat → Nat) :
    Nat → Heap → Nat → Nat → Nat → Option (Heap × Option Nat × Nat)
  | 0, h, _, _, pos => some (h, none, pos)
  | fuel+1, h, bref, np, pos =>
    if winning_move (heap_read h bref) PLAYER_PIECE then some (h, some PLAYER_PIECE, pos)
    else if winning_move (heap_read h bref) AI_PIECE then some (h, some AI_PIECE, pos)
    else
      match get_valid_locations (heap_read h bref) with
      | [] => some (h, none, pos)
      | v :: vs =>
        match random_choice (v :: vs) (rng pos) with
        | none => none
        | some mv =>
          match get_next_open_row (heap_read h bref) mv with
          | none => none
          | some row =>
            simulate_loopH rng fuel (heap_drop h bref row mv np) bref
              (if np == AI_PIECE then PLAYER_PIECE else AI_PIECE) (pos + 1)

/-- Source `simulate_random_playout`: copy the board (`b = board.copy()`, line 182),
then run the loop on the copy. -/
def simulate_random_playoutH (rng : Nat → Nat) (fuel : Nat) (h : Heap)
    (bref np pos : Nat) : Option (Heap × Option Nat × Nat) :=
  simulate_loopH rng fuel (heap_copy h bref).1 (heap_copy h bref).2 np pos

mutual
/-- One search iteration over the heap, mirroring `mcts_iteration`; the
expansion copies the parent board (`b_copy = self.board.copy()`, line 164)
and stores the dropped piece into the copy. -/
def mcts_iterationH (sel : NodeH → Nat) (rng : Nat → Nat) :
    Heap → NodeH → Nat → Option (Heap × NodeH × Nat × Option Nat)
  | h, .mk bref pl mv u ch v w, pos =>
    if ¬ is_terminal_node (heap_read h bref) ∧ u = [] then
      match mcts_select_childH sel rng h (sel (.mk bref pl mv u ch v w) % ch.length) ch pos with
      | none => none
      | some (h2, ch2, pos2, winner) =>
        some (h2, .mk bref pl mv u ch2 (v+1) (w + win_credit pl winner), pos2, winner)
    else if ¬ is_terminal_node (heap_read h bref) then
      match random_choice u (rng pos) with
      | none => none
      | some move =>
        match get_next_open_row (heap_read h bref) move with
        | none => none
        | some row =>
          match simulate_random_playoutH rng
              (count_empty_cells (heap_read
                (heap_drop (heap_copy h bref).1 (heap_copy h bref).2 row move
                  (next_player_piece (heap_read h bref))) (heap_copy h bref).2) + 1)
              (heap_drop (heap_copy h bref).1 (heap_copy h bref).2 row move
                (next_player_piece (heap_read h bref)))
              (heap_copy h bref).2
              (next_player_piece (heap_read
                (heap_drop (heap_copy h bref).1 (heap_copy h bref).2 row move
                  (next_player_piece (heap_read h bref))) (heap_copy h bref).2))
              (pos + 1) with
          | none => none
          | some (h3, winner, pos2) =>
            some (h3, .mk bref pl mv (u.erase move)
              (ch ++ [(move, .mk (heap_copy h bref).2
                (some (next_player_piece (heap_read h bref))) (some move)
                (get_valid_locations (heap_read
                  (heap_drop (heap_copy h bref).1 (heap_copy h bref).2 row move
                    (next_player_piece (heap_read h bref))) (heap_copy h bref).2)) [] 1
                (win_credit (some (next_player_piece (heap_read h bref))) winner))])
              (v+1) (w + win_credit pl winner), pos2, winner)
    else
      match simulate_random_playoutH rng (count_empty_cells (heap_read h bref) + 1) h bref
          (next_player_piece (heap_read h bref)) pos with
      | none => none
      | some (h2, winner, pos2) =>
        some (h2, .mk bref pl mv u ch (v+1) (w + win_credit pl winner), pos2, winner)

/-- Heap version of `mcts_select_child`. -/
def mcts_select_childH (sel : NodeH → Nat) (rng : Nat → Nat) :
    Heap → Nat → List (Nat × NodeH) → Nat →
      Option (Heap × List (Nat × NodeH) × Nat × Option Nat)
  | _, _, [], _ => none
  | h, 0, (m, c) :: rest, pos =>
    match mcts_iterationH sel rng h c pos with
    | none => none
    | some (h2, c2, pos2, winner) => some (h2, (m, c2) :: rest, pos2, winner)
  | h, i+1, (m, c) :: rest, pos =>
    match mcts_select_childH sel rng h i rest pos with
    | none => none
    | some (h2, rest2, pos2, winner) => some (h2, (m, c) :: rest2, pos2, winner)
end

/-- Heap version of the iteration loop. -/
def mcts_loopH (sel : NodeH → Nat) (rng : Nat → Nat) :
    Nat → Heap → NodeH → Nat → Option (Heap × NodeH × Nat)
  | 0, h, t, pos => some (h, t, pos)
  | n+1, h, t, pos =>
    match mcts_iterationH sel rng h t pos with
    | none => none
    | some (h2, t2, pos2, _) => mcts_loopH sel rng n h2 t2 pos2

/-- Heap version of `Node.best_child_by_visits`. -/
def best_child_by_visitsH (c0 : Nat × NodeH) (cs : List (Nat × NodeH)) : Nat × NodeH :=
  cs.foldl (fun acc y => if acc.2.visits < y.2.visits then y else acc) c0

/-- Source `MCTS_Search` over the heap: the root is built on a copy of the caller's
board (`root_board.copy()`, line 213); the statistics of the value-level
model read only tree counters and never the heap, so this heap refinement
returns the final heap and the chosen column. -/
def MCTS_SearchH (sel : NodeH → Nat) (rng : Nat → Nat) (h : Heap) (root_ref : Nat)
    (iterations : Nat) : Option (Heap × Nat) :=
  match mcts_loopH sel rng iterations (heap_copy h root_ref).1
      (NodeH.mk (heap_copy h root_ref).2 none none
        (get_valid_locations (heap_read (heap_copy h root_ref).1 (heap_copy h root_ref).2))
        [] 0 0) 0 with
  | none => none
  | some (h2, root, pos) =>
    match root.children with
    | [] =>
      match random_choice (get_valid_locations (heap_read h2 root_ref)) (rng pos) with
      | none => none
      | some col => some (h2, col)
    | c0 :: cs => some (h2, (best_child_by_visitsH c0 cs).2.move.getD 0)

/-! Frame lemmas: all stores hit references allocated inside the call. -/

theorem heap_copy_read_lt {h : Heap} {r i : Nat} (hi : i < h.length) :
    heap_read (heap_copy h r).1 i = heap_read h i := by
  unfold heap_copy heap_read
  rw [List.getD_eq_getElem?_getD, List.getD_eq_getElem?_getD,
    List.getElem?_append_left hi, List.getD_eq_getElem?_getD]

theorem heap_copy_len (h : Heap) (r : Nat) : (heap_copy h r).1.length = h.length + 1 := by
  simp [heap_copy]

theorem heap_drop_read_ne {h : Heap} {r i row col piece : Nat} (hne : i ≠ r) :
    heap_read (heap_drop h r row col piece) i = heap_read h i := by
  unfold heap_drop heap_read
  rw [List.getD_eq_getElem?_getD, List.getD_eq_getElem?_getD,
    List.getElem?_set_ne (by omega), List.getD_eq_getElem?_getD]

theorem heap_drop_len (h : Heap) (r row col piece : Nat) :
    (heap_drop h r row col piece).length = h.length := by
  simp [heap_drop]

theorem simulate_loopH_frame (rng : Nat → Nat) :
    ∀ (fuel : Nat) (h : Heap) (bref np pos : Nat) (h2 : Heap) (wn : Option Nat) (pos2 : Nat),
      simulate_loopH rng fuel h bref np pos = some (h2, wn, pos2) →
      h2.length = h.length ∧ ∀ i, i ≠ bref → heap_read h2 i = heap_read h i := by
  intro fuel
  induction fuel with
  | zero =>
    intro h bref np pos h2 wn pos2 hs
    simp only [simulate_loopH, Option.some_inj, Prod.mk.injEq] at hs
    rw [← hs.1]
    exact ⟨rfl, fun _ _ => rfl⟩
  | succ fuel ih =>
    intro h bref np pos h2 wn pos2 hs
    unfold simulate_loopH at hs
    by_cases h1 : winning_move (heap_read h bref) PLAYER_PIECE
    · rw [if_pos h1] at hs
      simp only [Option.some_inj, Prod.mk.injEq] at hs
      rw [← hs.1]
      exact ⟨rfl, fun _ _ => rfl⟩
    · rw [if_neg h1] at hs
      by_cases h2w : winning_move (heap_read h bref) AI_PIECE
      · rw [if_pos h2w] at hs
        simp only [Option.some_inj, Prod.mk.injEq] at hs
        rw [← hs.1]
        exact ⟨rfl, fun _ _ => rfl⟩
      · rw [if_neg h2w] at hs
        cases hv : get_valid_locations (heap_read h bref) with
        | nil =>
          rw [hv] at hs
          simp only [Option.some_inj, Prod.mk.injEq] at hs
          rw [← hs.1]
          exact ⟨rfl, fun _ _ => rfl⟩
        | cons vv vs =>
          rw [hv] at hs
          dsimp only at hs
          cases hrc : random_choice (vv :: vs) (rng pos) with
          | none => rw [hrc] at hs; exact absurd hs (by simp)
          | some mv =>
            rw [hrc] at hs
            dsimp only at hs
            cases hro : get_next_open_row (heap_read h bref) mv with
            | none => rw [hro] at hs; exact absurd hs (by simp)
            | some row =>
              rw [hro] at hs
              dsimp only at hs
              obtain ⟨hlen, hframe⟩ := ih _ _ _ _ _ _ _ hs
              refine ⟨by rw [hlen, heap_drop_len], fun i hi => ?_⟩
              rw [hframe i hi, heap_drop_read_ne hi]

theorem simulateH_frame {rng : Nat → Nat} {fuel : Nat} {h : Heap}
    {bref np pos : Nat} {h2 : Heap} {wn : Option Nat} {pos2 : Nat}
    (hs : simulate_random_playoutH rng fuel h bref np pos = some (h2, wn, pos2)) :
    h.length ≤ h2.length ∧ ∀ i, i < h.length → heap_read h2 i = heap_read h i := by
  unfold simulate_random_playoutH at hs
  obtain ⟨hlen, hframe⟩ := simulate_loopH_frame rng _ _ _ _ _ _ _ _ hs
  constructor
  · rw [hlen, heap_copy_len]
    omega
  · intro i hi
    rw [hframe i (by simp [heap_copy]; omega), heap_copy_read_lt hi]

theorem mcts_select_childH_spec (sel : NodeH → Nat) (rng : Nat → Nat) :
    ∀ (ch : List (Nat × NodeH)) (h : Heap) (i pos : Nat) (h2 : Heap)
      (ch2 : List (Nat × NodeH)) (pos2 : Nat) (winner : Option Nat),
      mcts_select_childH sel rng h i ch pos = some (h2, ch2, pos2, winner) →
      ∃ (hi : i < ch.length) (c2 : NodeH),
        mcts_iterationH sel rng h (ch.get ⟨i, hi⟩).2 pos = some (h2, c2, pos2, winner) := by
  intro ch
  induction ch with
  | nil =>
    intro h i pos h2 ch2 pos2 winner hs
    cases i <;> simp [mcts_select_childH] at hs
  | cons hd tl ih =>
    intro h i pos h2 ch2 pos2 winner hs
    obtain ⟨m, c⟩ := hd
    cases i with
    | zero =>
      unfold mcts_select_childH at hs
      cases hit : mcts_iterationH sel rng h c pos with
      | none => rw [hit] at hs; exact absurd hs (by simp)
      | some x =>
        obtain ⟨hx, c2, px, wx⟩ := x
        rw [hit] at hs
        simp only [Option.some_inj, Prod.mk.injEq] at hs
        obtain ⟨hs1, hs2, hs3, hs4⟩ := hs
        subst hs1; subst hs3; subst hs4
        exact ⟨Nat.succ_pos _, c2, hit⟩
    | succ i =>
      unfold mcts_select_childH at hs
      cases hrec : mcts_select_childH sel rng h i tl pos with
      | none => rw [hrec] at hs; exact absurd hs (by simp)
      | some x =>
        obtain ⟨hx, tl2, px, wx⟩ := x
        rw [hrec] at hs
        simp only [Option.some_inj, Prod.mk.injEq] at hs
        obtain ⟨hs1, hs2, hs3, hs4⟩ := hs
        subst hs1; subst hs3; subst hs4
        obtain ⟨hi, c2, hit⟩ := ih h i pos _ tl2 _ _ hrec
        exact ⟨Nat.succ_lt_succ hi, c2, hit⟩

theorem sizeOf_sndH_lt_of_mem {p : Nat × NodeH} {ch : List (Nat × NodeH)} (hm : p ∈ ch) :
    sizeOf p.2 < sizeOf ch := by
  have h1 : sizeOf p < sizeOf ch := List.sizeOf_lt_of_mem hm
  obtain ⟨a, t⟩ := p
  simp at h1 ⊢
  omega

/-- The frame theorem for one iteration: the heap only grows, and every
pre-existing entry keeps its value — all stores go to fresh copies. -/
theorem mcts_iterationH_frame (sel : NodeH → Nat) (rng : Nat → Nat) :
    ∀ (t : NodeH) (h : Heap) (pos : Nat) (h2 : Heap) (t2 : NodeH) (pos2 : Nat)
      (winner : Option Nat),
      mcts_iterationH sel rng h t pos = some (h2, t2, pos2, winner) →
      h.length ≤ h2.length ∧ ∀ i, i < h.length → heap_read h2 i = heap_read h i
  | .mk bref pl mv u ch v w, h, pos, h2, t2, pos2, winner, hs => by
    unfold mcts_iterationH at hs
    by_cases hc1 : ¬ is_terminal_node (heap_read h bref) = true ∧ u = []
    · rw [if_pos hc1] at hs
      cases hsc : mcts_select_childH sel rng h
          (sel (.mk bref pl mv u ch v w) % ch.length) ch pos with
      | none => rw [hsc] at hs; exact absurd hs (by simp)
      | some x =>
        obtain ⟨hx, ch2, px, wx⟩ := x
        rw [hsc] at hs
        simp only [Option.some_inj, Prod.mk.injEq] at hs
        obtain ⟨hs1, hs2, hs3, hs4⟩ := hs
        subst hs1; subst hs3; subst hs4
        obtain ⟨hi, c2, hit⟩ := mcts_select_childH_spec sel rng ch h _ pos _ ch2 _ _ hsc
        exact mcts_iterationH_frame sel rng (ch.get ⟨_, hi⟩).2 h pos _ c2 _ _ hit
    · rw [if_neg hc1] at hs
      by_cases hc2 : ¬ is_terminal_node (heap_read h bref) = true
      · rw [if_pos hc2] at hs
        cases hrc : random_choice u (rng pos) with
        | none => rw [hrc] at hs; exact absurd hs (by simp)
        | some move =>
          rw [hrc] at hs
          dsimp only at hs
          cases hro : get_next_open_row (heap_read h bref) move with
          | none => rw [hro] at hs; exact absurd hs (by simp)
          | some row =>
            rw [hro] at hs
            dsimp only at hs
            cases hsim : simulate_random_playoutH rng
                (count_empty_cells (heap_read
                  (heap_drop (heap_copy h bref).1 (heap_copy h bref).2 row move
                    (next_player_piece (heap_read h bref))) (heap_copy h bref).2) + 1)
                (heap_drop (heap_copy h bref).1 (heap_copy h bref).2 row move
                  (next_player_piece (heap_read h bref)))
                (heap_copy h bref).2
                (next_player_piece (heap_read
                  (heap_drop (heap_copy h bref).1 (heap_copy h bref).2 row move
                    (next_player_piece (heap_read h bref))) (heap_copy h bref).2))
                (pos + 1) with
            | none => rw [hsim] at hs; exact absurd hs (by simp)
            | some x =>
              obtain ⟨hx, wx, px⟩ := x
              rw [hsim] at hs
              simp only [Option.some_inj, Prod.mk.injEq] at hs
              obtain ⟨hs1, hs2, hs3, hs4⟩ := hs
              subst hs1; subst hs3; subst hs4
              obtain ⟨hlen, hframe⟩ := simulateH_frame hsim
              have hdl : (heap_drop (heap_copy h bref).1 (heap_copy h bref).2 row move
                  (next_player_piece (heap_read h bref))).length = h.length + 1 := by
                rw [heap_drop_len, heap_copy_len]
              constructor
              · rw [hdl] at hlen
                omega
              · intro i hi
                rw [hframe i (by rw [hdl]; omega)]
                rw [heap_drop_read_ne (by simp [heap_copy]; omega), heap_copy_read_lt hi]
      · rw [if_neg hc2] at hs
        cases hsim : simulate_random_playoutH rng
            (count_empty_cells (heap_read h bref) + 1) h bref
            (next_player_piece (heap_read h bref)) pos with
        | none => rw [hsim] at hs; exact absurd hs (by simp)
        | some x =>
          obtain ⟨hx, wx, px⟩ := x
          rw [hsim] at hs
          simp only [Option.some_inj, Prod.mk.injEq] at hs
          obtain ⟨hs1, hs2, hs3, hs4⟩ := hs
          subst hs1; subst hs3; subst hs4
          exact simulateH_frame hsim
termination_by t _ _ _ _ _ _ _ => sizeOf t
decreasing_by
  have h1 : sizeOf (ch.get ⟨sel (.mk bref pl mv u ch v w) % ch.length, hi⟩).2 < sizeOf ch :=
    sizeOf_sndH_lt_of_mem (List.get_mem _ _ _)
  simp only [List.get_eq_getElem] at h1
  simp
  omega

theorem mcts_loopH_frame (sel : NodeH → Nat) (rng : Nat → Nat) :
    ∀ (n : Nat) (h : Heap) (t : NodeH) (pos : Nat) (h2 : Heap) (t2 : NodeH) (pos2 : Nat),
      mcts_loopH sel rng n h t pos = some (h2, t2, pos2) →
      h.length ≤ h2.length ∧ ∀ i, i < h.length → heap_read h2 i = heap_read h i := by
  intro n
  induction n with
  | zero =>
    intro h t pos h2 t2 pos2 hs
    simp only [mcts_loopH, Option.some_inj, Prod.mk.injEq] at hs
    rw [← hs.1]
    exact ⟨Nat.le_refl _, fun _ _ => rfl⟩
  | succ n ih =>
    intro h t pos h2 t2 pos2 hs
    unfold mcts_loopH at hs
    cases hit : mcts_iterationH sel rng h t pos with
    | none => rw [hit] at hs; exact absurd hs (by simp)
    | some x =>
      obtain ⟨hm, tm, pm, wm⟩ := x
      rw [hit] at hs
      obtain ⟨hl1, hf1⟩ := mcts_iterationH_frame sel rng t h pos hm tm pm wm hit
      obtain ⟨hl2, hf2⟩ := ih hm tm pm h2 t2 pos2 hs
      refine ⟨Nat.le_trans hl1 hl2, fun i hi => ?_⟩
      rw [hf2 i (by omega), hf1 i hi]

/-- C8 — the caller's board is unchanged when the search returns: the engine
copies the board at the root and again at every expansion and rollout, and
every store targets one of those fresh copies, so every heap entry that
existed before the call — in particular the caller's board reference — still
holds its original value afterwards. -/
theorem C8_caller_board_unchanged (sel : NodeH → Nat) (rng : Nat → Nat)
    (h : Heap) (root_ref : Nat) (N : Nat) (h2 : Heap) (col : Nat)
    (href : root_ref < h.length)
    (hrun : MCTS_SearchH sel rng h root_ref N = some (h2, col)) :
    heap_read h2 root_ref = heap_read h root_ref ∧ h.length ≤ h2.length ∧
    ∀ i, i < h.length → heap_read h2 i = heap_read h i := by
  unfold MCTS_SearchH at hrun
  cases hloop : mcts_loopH sel rng N (heap_copy h root_ref).1
      (NodeH.mk (heap_copy h root_ref).2 none none
        (get_valid_locations (heap_read (heap_copy h root_ref).1 (heap_copy h root_ref).2))
        [] 0 0) 0 with
  | none => rw [hloop] at hrun; exact absurd hrun (by simp)
  | some x =>
    obtain ⟨hm, root, pm⟩ := x
    rw [hloop] at hrun
    dsimp only at hrun
    obtain ⟨hl1, hf1⟩ := mcts_loopH_frame sel rng N _ _ 0 hm root pm hloop
    have hcl : (heap_copy h root_ref).1.length = h.length + 1 := heap_copy_len h root_ref
    have hframe : ∀ i, i < h.length → heap_read hm i = heap_read h i := by
      intro i hi
      rw [hf1 i (by omega), heap_copy_read_lt hi]
    have hmh : hm = h2 := by
      cases hch : root.children with
      | nil =>
        rw [hch] at hrun
        dsimp only at hrun
        cases hrc : random_choice (get_valid_locations (heap_read hm root_ref)) (rng pm) with
        | none => rw [hrc] at hrun; exact absurd hrun (by simp)
        | some c =>
          rw [hrc] at hrun
          simp only [Option.some_inj, Prod.mk.injEq] at hrun
          exact hrun.1
      | cons c0 cs =>
        rw [hch] at hrun
        simp only [Option.some_inj, Prod.mk.injEq] at hrun
        exact hrun.1
    subst hmh
    exact ⟨hframe root_ref href, by omega, hframe⟩

/-- Sample heap: the caller owns one board, a finished game. -/
def sample_heap : Heap := [sample_win_board]

theorem C8_caller_board_unchanged_witness :
    heap_read [sample_win_board, sample_win_board, sample_win_board] 0 =
      heap_read sample_heap 0 :=
  (C8_caller_board_unchanged (fun _ => 0) (fun _ => 0) sample_heap 0 1
    [sample_win_board, sample_win_board, sample_win_board] 0 (by decide) rfl).1

end MCT
